import Mathlib

/-!
Verification of the normalization + fuzzy-matching reconciliation engine of the
Playlist-sync-and-downloader repository (`src/list_missing_tracks.py` and
`src/fuvi_download.py`), as a shallow embedding over `String` / `List Char`.

Python regular expressions are translated into explicit, executable scanners on
`List Char`.  Each scanner's doc comment names the regex it embeds and the
source line it comes from.  All machine text handled by the engine is ASCII by
the time the character-class predicates (`\w`, `\s`, case folding) are applied
(the pipeline transliterates with `unidecode` first), so those predicates are
modelled on the ASCII range.
-/

namespace PlaylistSync

/-- Python `\s` on the ASCII range: space, tab, newline, carriage return,
vertical tab, form feed (code points 32, 9, 10, 13, 11, 12). -/
def isSpaceChar (c : Char) : Bool :=
  c.toNat == 32 || c.toNat == 9 || c.toNat == 10 || c.toNat == 13 ||
    c.toNat == 11 || c.toNat == 12

/-- Python `\w` on the ASCII range: letters, digits and underscore. -/
def isWordChar (c : Char) : Bool :=
  (65 ≤ c.toNat && c.toNat ≤ 90) || (97 ≤ c.toNat && c.toNat ≤ 122) ||
    (48 ≤ c.toNat && c.toNat ≤ 57) || c.toNat == 95

/-- The pattern `pat` is a prefix of `l` (case-sensitive literal match). -/
def startsWithL : List Char → List Char → Bool
  | [], _ => true
  | _ :: _, [] => false
  | p :: ps, c :: cs => p == c && startsWithL ps cs

/-- The pattern `pat` is a prefix of `l` up to ASCII case (a case-insensitive
literal regex match). -/
def startsWithCI : List Char → List Char → Bool
  | [], _ => true
  | _ :: _, [] => false
  | p :: ps, c :: cs => p.toLower == c.toLower && startsWithCI ps cs

/-- The pattern `pat` occurs as a contiguous substring of the text
(case-sensitive); Python `re.search` of a literal, or `'pat' in text`. -/
def containsSub (pat : List Char) : List Char → Bool
  | [] => startsWithL pat []
  | c :: cs => startsWithL pat (c :: cs) || containsSub pat cs

/-- Case-insensitive substring occurrence. -/
def containsSubCI (pat : List Char) : List Char → Bool
  | [] => startsWithCI pat []
  | c :: cs => startsWithCI pat (c :: cs) || containsSubCI pat cs

/-- Python `str.lower()` (ASCII model; all engine text is ASCII post-unidecode). -/
def lowerStr (s : String) : String := ⟨s.data.map Char.toLower⟩

/-- Python `needle in hay` for strings. -/
def containsStr (hay needle : String) : Bool := containsSub needle.data hay.data

/-! ## Mix-Type Conflict Resolver (`is_mix_type_conflict`, src/list_missing_tracks.py:91-126) -/

/-- The `NEUTRAL` list of `is_mix_type_conflict` (src/list_missing_tracks.py:99-102). -/
def NEUTRAL : List String :=
  ["original mix", "extended mix", "club mix", "club mix edit", "radio edit", "radio mix",
   "edit", "version", "mix", "extended", "original", "extended club mix"]

/-- The inner `is_remix_type` helper (src/list_missing_tracks.py:107-114). -/
def is_remix_type (mt : String) : Bool :=
  if mt = "" then false
  else if containsStr mt "remix" then true
  else if (containsStr mt "edit" || containsStr mt "mix" || containsStr mt "version")
          && !(NEUTRAL.contains mt) then true
  else false

/-- Body of `is_mix_type_conflict` after the `(mt or '').lower()` coercions
(src/list_missing_tracks.py:116-126). -/
def conflictCore (m1 m2 : String) : Bool :=
  if m1 = "" ∧ m2 = "" then false
  else if m1 ∈ NEUTRAL ∧ m2 ∈ NEUTRAL then false
  else if (m1 ∈ NEUTRAL ∧ m2 = "") ∨ (m2 ∈ NEUTRAL ∧ m1 = "") then false
  else if (is_remix_type m1 = true ∧ (m2 ∈ NEUTRAL ∨ m2 = ""))
       ∨ (is_remix_type m2 = true ∧ (m1 ∈ NEUTRAL ∨ m1 = "")) then true
  else if is_remix_type m1 = true ∧ is_remix_type m2 = true then false
  else decide (m1 ≠ m2)

/-- The function `is_mix_type_conflict(mt1, mt2)` (src/list_missing_tracks.py:91-126).
`Option String` models the Python arguments that may be `None`; `(mt or '').lower()`
is `lowerStr (· |>.getD "")` (both `None` and `''` are falsy and coerce to `''`). -/
def is_mix_type_conflict (mt1 mt2 : Option String) : Bool :=
  conflictCore (lowerStr (mt1.getD "")) (lowerStr (mt2.getD ""))

/-! ## The spec's decision table (§4.4), written from the spec's words -/

/-- The closed neutral vocabulary exactly as §4.4 of the spec lists it. -/
def specNeutralVocab : List String :=
  ["original mix", "extended mix", "club mix", "club mix edit", "radio edit", "radio mix",
   "edit", "version", "mix", "extended", "original", "extended club mix"]

/-- Spec §4.4: a qualifier is "remix-type" when it contains "remix", or contains
edit/mix/version but is not in the neutral vocabulary. -/
def specRemixType (q : String) : Bool :=
  containsStr q "remix" ||
    ((containsStr q "edit" || containsStr q "mix" || containsStr q "version")
      && !(specNeutralVocab.contains q))

/-- Spec §4.4 decision table, rows evaluated in order: both empty → no conflict;
both neutral → no conflict; one neutral and the other empty → no conflict;
one remix-type and the other neutral-or-empty → conflict; both remix-type → no
conflict; otherwise conflict iff not string-identical. -/
def spec_conflicts (a b : String) : Bool :=
  if a = "" ∧ b = "" then false
  else if a ∈ specNeutralVocab ∧ b ∈ specNeutralVocab then false
  else if (a ∈ specNeutralVocab ∧ b = "") ∨ (b ∈ specNeutralVocab ∧ a = "") then false
  else if (specRemixType a = true ∧ (b ∈ specNeutralVocab ∨ b = ""))
       ∨ (specRemixType b = true ∧ (a ∈ specNeutralVocab ∨ a = "")) then true
  else if specRemixType a = true ∧ specRemixType b = true then false
  else decide (a ≠ b)

theorem containsStr_empty (needle : String) (h : needle.data ≠ []) :
    containsStr "" needle = false := by
  unfold containsStr containsSub
  cases hn : needle.data with
  | nil => exact absurd hn h
  | cons c cs => simp [startsWithL]

theorem is_remix_type_eq_spec (q : String) : is_remix_type q = specRemixType q := by
  by_cases hq : q = ""
  · subst hq
    have h1 : containsStr "" "remix" = false := containsStr_empty _ (by decide)
    have h2 : containsStr "" "edit" = false := containsStr_empty _ (by decide)
    have h3 : containsStr "" "mix" = false := containsStr_empty _ (by decide)
    have h4 : containsStr "" "version" = false := containsStr_empty _ (by decide)
    simp [is_remix_type, specRemixType, h1, h2, h3, h4]
  · unfold is_remix_type specRemixType
    rw [if_neg hq]
    have hvocab : specNeutralVocab.contains q = NEUTRAL.contains q := rfl
    rw [hvocab]
    cases h1 : containsStr q "remix" <;>
      cases h2 : (containsStr q "edit" || containsStr q "mix" || containsStr q "version")
          && !(NEUTRAL.contains q) <;>
      simp [h1, h2]

theorem conflictCore_symm (m1 m2 : String) : conflictCore m1 m2 = conflictCore m2 m1 := by
  unfold conflictCore
  by_cases hx : m1 = "" <;> by_cases hy : m2 = "" <;>
    by_cases n1 : m1 ∈ NEUTRAL <;> by_cases n2 : m2 ∈ NEUTRAL <;>
    by_cases r1 : is_remix_type m1 = true <;> by_cases r2 : is_remix_type m2 = true <;>
    simp only [hx, hy, n1, n2, r1, r2, true_and, and_true, false_and, and_false,
      true_or, or_true, false_or, or_false, if_true, if_false, not_false_eq_true,
      not_true_eq_false, ite_true, ite_false, and_self, or_self] <;>
    first
      | rfl
      | exact decide_eq_decide.mpr ne_comm

/-- C5: the mix-type conflict decision is symmetric: for all qualifier values
`a` and `b` (including absent ones), `conflicts(a, b) == conflicts(b, a)`. -/
theorem mix_type_conflict_symm (a b : Option String) :
    is_mix_type_conflict a b = is_mix_type_conflict b a :=
  conflictCore_symm _ _

/-- C10: the conflict decision treats a missing (`None`) qualifier exactly like
the empty string, for every qualifier string `x`, on either side. -/
theorem mix_type_conflict_none_eq_empty (x : String) :
    is_mix_type_conflict none (some x) = is_mix_type_conflict (some "") (some x) ∧
    is_mix_type_conflict (some x) none = is_mix_type_conflict (some x) (some "") :=
  ⟨rfl, rfl⟩

theorem lowerStr_getD (a : String) (ha : lowerStr a = a) :
    lowerStr ((some a).getD "") = a := ha

/-- C2: on lowercase qualifier strings (the form `extract_mix_type` produces and
§3 specifies for `mix_type`), the code's conflict decision coincides with the
spec's ordered decision table of §4.4. -/
theorem mix_type_conflict_matches_spec_table (a b : String)
    (ha : lowerStr a = a) (hb : lowerStr b = b) :
    is_mix_type_conflict (some a) (some b) = spec_conflicts a b := by
  unfold is_mix_type_conflict
  rw [lowerStr_getD a ha, lowerStr_getD b hb]
  unfold conflictCore spec_conflicts
  simp only [is_remix_type_eq_spec]
  rfl

/-- Witness for C2 at a concrete pair of lowercase qualifiers. -/
theorem mix_type_conflict_matches_spec_table_witness :
    is_mix_type_conflict (some "acme remix") (some "") = spec_conflicts "acme remix" "" :=
  mix_type_conflict_matches_spec_table "acme remix" "" (by decide) (by decide)

/-! ## Python `str.strip()` and the Permutation Expander -/

/-- Python `str.lstrip()` of ASCII whitespace. -/
def stripL (l : List Char) : List Char := l.dropWhile isSpaceChar

/-- Right strip: drop trailing ASCII whitespace. -/
def stripR (l : List Char) : List Char := (l.reverse.dropWhile isSpaceChar).reverse

/-- Python `str.strip()` of ASCII whitespace (both ends). -/
def stripChars (l : List Char) : List Char := stripL (stripR l)

/-- Python `str.strip()` at the `String` level. -/
def stripS (s : String) : String := ⟨stripChars s.data⟩

/-- The function `generate_artist_permutations` of src/list_missing_tracks.py:16-21.
Python builds `list(set(", ".join(p) for p in itertools.permutations(artists)))`;
a Python `set`'s iteration order is unspecified, so the deduplicated list is
modelled with `List.dedup` and claims about it are stated at the level of the
underlying finite set.  `List.permutations'` enumerates the same multiset of
orderings as `itertools.permutations` (all `n!` of them, duplicates included). -/
def generate_artist_permutations (artists : List String) : List String :=
  if artists.length ≤ 1 then [String.intercalate ", " artists]
  else (artists.permutations'.map (String.intercalate ", ")).dedup

/-- The `generate_artist_permutations` variant of src/fuvi_download.py:115-121.
It strips each artist name, and for two or more artists returns the full
permutation list with no deduplication. -/
def fuvi_generate_artist_permutations (artist_list : List String) : List String :=
  match artist_list with
  | [] => [""]
  | [a] => [stripS a]
  | l => ((l.map stripS).permutations').map (String.intercalate ", ")

/-- C6 (amended): the catalog-side expander returns exactly the set of distinct
orderings joined with `", "` — all `n!` permutations, deduplicated — and the
singleton joined string for 0 or 1 artists. -/
theorem generate_artist_permutations_spec (artists : List String) :
    (generate_artist_permutations artists).toFinset
        = (artists.permutations'.map (String.intercalate ", ")).toFinset ∧
      (artists.length ≤ 1 →
        generate_artist_permutations artists = [String.intercalate ", " artists]) := by
  constructor
  · unfold generate_artist_permutations
    by_cases h : artists.length ≤ 1
    · rw [if_pos h]
      rcases artists with _ | ⟨a, _ | ⟨b, rest⟩⟩
      · rfl
      · rfl
      · simp at h
    · rw [if_neg h]
      ext x
      simp [List.mem_dedup]
  · intro h
    unfold generate_artist_permutations
    rw [if_pos h]

/-- Witness for C6 at a singleton artist list. -/
theorem generate_artist_permutations_spec_witness :
    generate_artist_permutations ["solo"] = [String.intercalate ", " ["solo"]] :=
  (generate_artist_permutations_spec ["solo"]).2 (by decide)

/-- C6 counterexample: the live-mode expander (src/fuvi_download.py:115-121) does
not deduplicate, so a duplicated artist name yields repeated entries, contradicting
"duplicate names never yield repeated entries". -/
theorem fuvi_generate_artist_permutations_repeats :
    fuvi_generate_artist_permutations ["x", "x"] = ["x, x", "x, x"] ∧
      (fuvi_generate_artist_permutations ["x", "x"]).Nodup = False := by
  constructor
  · decide
  · simp only [eq_iff_iff, iff_false]
    decide

/-! ## Generic regex-substitution scanners

Python `re.sub(pat, '', text)` / `re.split(pat, text)` scan left to right,
take the leftmost match (alternatives in the pattern's order), and resume
after the matched span.  The scanners below implement exactly that with a
length-returning matcher anchored at the head of the remaining text; a skip
counter consumes the remaining characters of a matched span, which keeps the
recursion structural (and therefore kernel-computable). -/

/-- Global deletion scanner for `re.sub(pat, '', text)`.  `m l` is the length
of a match anchored at the head of `l` (always at least 1 for the matchers
used in this file). -/
def subDeleteGo (m : List Char → Option Nat) : Nat → List Char → List Char
  | _, [] => []
  | n + 1, _ :: rest => subDeleteGo m n rest
  | 0, c :: rest =>
    match m (c :: rest) with
    | some k => subDeleteGo m (k - 1) rest
    | none => c :: subDeleteGo m 0 rest

/-- Run a deletion scan from the start of the text. -/
def subDelete (m : List Char → Option Nat) (l : List Char) : List Char :=
  subDeleteGo m 0 l

/-- Splitting scanner for `re.split(pat, text)`: pieces between matches are
kept (including empty ones), separators are dropped. -/
def splitSepsGo (m : List Char → Option Nat) : Nat → List Char → List (List Char)
  | _, [] => [[]]
  | n + 1, _ :: rest => splitSepsGo m n rest
  | 0, c :: rest =>
    match m (c :: rest) with
    | some k => [] :: splitSepsGo m (k - 1) rest
    | none =>
      match splitSepsGo m 0 rest with
      | [] => [[c]]
      | p :: ps => (c :: p) :: ps

/-- Run a splitting scan from the start of the text. -/
def splitSeps (m : List Char → Option Nat) (l : List Char) : List (List Char) :=
  splitSepsGo m 0 l

/-- First pattern of the list that is a case-insensitive prefix of `l`, as a
match length: the matcher for an `re.I` alternation of string literals. -/
def litLenCI : List (List Char) → List Char → Option Nat
  | [], _ => none
  | p :: ps, l => if startsWithCI p l then some p.length else litLenCI ps l

/-- Turn a remainder-returning matcher into a length-returning one. -/
def remToLen (m : List Char → Option (List Char)) (l : List Char) : Option Nat :=
  (m l).map (fun r => l.length - r.length)

/-! ## Normalizer (`normalize_text`, src/list_missing_tracks.py:27-34) -/

/-- The country-tag literals of `re.sub(r'\((ofc|be|uk|us|fr|it|ca|au|de)\)', '', text, re.I)`
(src/list_missing_tracks.py:25,32). -/
def countryTagPats : List (List Char) :=
  ["(ofc)", "(be)", "(uk)", "(us)", "(fr)", "(it)", "(ca)", "(au)", "(de)"].map String.data

/-- Modelled from the spec (§4.1 step 6): `unidecode.unidecode` is an external
library, absent from src/.  It transliterates to ASCII; modelled as the
identity on ASCII characters, a folding table for common Latin diacritics, and
dropping any other character.  The theorems below depend only on its being the
identity on the ASCII characters the normalizer outputs. -/
def unidecodeChar (c : Char) : List Char :=
  if c.toNat < 128 then [c]
  else if c ∈ ['á', 'à', 'â', 'ä', 'ã', 'å'] then ['a']
  else if c ∈ ['é', 'è', 'ê', 'ë'] then ['e']
  else if c ∈ ['í', 'ì', 'î', 'ï'] then ['i']
  else if c ∈ ['ó', 'ò', 'ô', 'ö', 'õ', 'ø'] then ['o']
  else if c ∈ ['ú', 'ù', 'û', 'ü'] then ['u']
  else if c = 'ñ' then ['n']
  else if c = 'ç' then ['c']
  else []

/-- Transliterate a whole string. -/
def unidecodeChars (l : List Char) : List Char := l.flatMap unidecodeChar

/-- Group a string into maximal runs of word characters and non-word
characters; each element records whether its run is a word run. -/
def charRuns : List Char → List (Bool × List Char)
  | [] => []
  | c :: rest =>
    match charRuns rest with
    | [] => [(isWordChar c, [c])]
    | (b, run) :: rs =>
      if isWordChar c = b then (b, c :: run) :: rs
      else (isWordChar c, [c]) :: (b, run) :: rs

/-- The three word alternatives of `re.sub(r'(?i)\b(feat|ft|featuring)\b', '', text)`. -/
def featTokenWords : List (List Char) :=
  [['f', 'e', 'a', 't'], ['f', 't'], ['f', 'e', 'a', 't', 'u', 'r', 'i', 'n', 'g']]

/-- A run is a `\b(feat|ft|featuring)\b` match: a word run equal,
case-insensitively, to one of the three words. -/
def isFeatRun (r : Bool × List Char) : Bool :=
  r.1 && featTokenWords.contains (r.2.map Char.toLower)

/-- Embeds `re.sub(r'(?i)\b(feat|ft|featuring)\b', '', text)`
(src/list_missing_tracks.py:30): a `\b`-delimited alternative matches exactly a
maximal word-character run equal (case-insensitively) to one of the three
words, and `re.sub` deletes every such run. -/
def removeFeatTokens (l : List Char) : List Char :=
  ((charRuns l).map (fun r => if isFeatRun r then [] else r.2)).flatten

/-- The text contains a standalone `feat`/`ft`/`featuring` word. -/
def hasFeatToken (l : List Char) : Bool := (charRuns l).any isFeatRun

/-- Embeds `re.sub(r'\s+', ' ', text)`: every maximal whitespace run becomes a
single `' '`. -/
def collapseWS : List Char → List Char
  | [] => []
  | [c] => if isSpaceChar c then [' '] else [c]
  | c1 :: c2 :: rest =>
    if isSpaceChar c1 && isSpaceChar c2 then collapseWS (c2 :: rest)
    else (if isSpaceChar c1 then ' ' else c1) :: collapseWS (c2 :: rest)

/-- Python `text.replace('&', 'and')`. -/
def replaceAmp (l : List Char) : List Char :=
  l.flatMap (fun c => if c = '&' then ['a', 'n', 'd'] else [c])

/-- The character pipeline of `normalize_text` (src/list_missing_tracks.py:27-34):
unidecode; drop standalone feat/ft/featuring; `&` → `and`; drop country tags;
drop non-word non-space characters; collapse whitespace, lowercase, strip. -/
def normalizeChars (l : List Char) : List Char :=
  stripChars
    ((collapseWS
        ((subDelete (litLenCI countryTagPats)
              (replaceAmp (removeFeatTokens (unidecodeChars l)))).filter
          (fun c => isWordChar c || isSpaceChar c))).map
      Char.toLower)

/-- `normalize_text` (src/list_missing_tracks.py:27-34). -/
def normalize_text (s : String) : String := ⟨normalizeChars s.data⟩

/-- `sanitize_local_artist` (src/list_missing_tracks.py:23-25). -/
def sanitize_local_artist (artist_name : String) : String :=
  stripS ⟨subDelete (litLenCI countryTagPats) artist_name.data⟩

/-! ## Mix-type extraction (`extract_mix_type`, src/list_missing_tracks.py:64-76) -/

/-- Scanner for `re.search(r'\(([^)]+)\)$', title)` (src/list_missing_tracks.py:68):
the leftmost `(` after which the rest of the string is a nonempty run of
non-`)` characters closed by a final `)`; returns the captured group. -/
def parenGroupAtEnd : List Char → Option (List Char)
  | [] => none
  | c :: rest =>
    if c = '(' && rest.getLast? == some ')' && !(rest.dropLast.contains ')')
        && !rest.dropLast.isEmpty then
      some rest.dropLast
    else parenGroupAtEnd rest

/-- The check `re.search(r'remix|mix|edit|version', mix)` on the lowercased
group (src/list_missing_tracks.py:71). -/
def hasMixWord (l : List Char) : Bool :=
  containsSub ['r', 'e', 'm', 'i', 'x'] l || containsSub ['m', 'i', 'x'] l ||
    containsSub ['e', 'd', 'i', 't'] l || containsSub ['v', 'e', 'r', 's', 'i', 'o', 'n'] l

/-- The pattern `pat` is a suffix of `l` up to ASCII case. -/
def endsWithCI (pat l : List Char) : Bool := startsWithCI pat.reverse l.reverse

/-- Tail condition of `re.search(r'-\s*([^-]+(?:remix|mix|edit|version))$', title, re.I)`
(src/list_missing_tracks.py:73) at a `-` whose suffix `t` contains no further
`-`: with `r` being `t` without its leading whitespace, the pattern matches iff
`r` ends with a keyword (case-insensitively) and the mandatory nonempty `[^-]+`
can be satisfied — either `r` is strictly longer than that keyword, or greedy
backtracking absorbs a whitespace character into `[^-]+`. -/
def hyphenTailOk (t : List Char) : Bool :=
  let r := t.dropWhile isSpaceChar
  let ws := !(t.length == r.length)
  (endsWithCI ['r', 'e', 'm', 'i', 'x'] r && (decide (5 < r.length) || ws)) ||
    (endsWithCI ['m', 'i', 'x'] r && (decide (3 < r.length) || ws)) ||
    (endsWithCI ['e', 'd', 'i', 't'] r && (decide (4 < r.length) || ws)) ||
    (endsWithCI ['v', 'e', 'r', 's', 'i', 'o', 'n'] r && (decide (7 < r.length) || ws))

/-- Scanner for the hyphen fallback of `extract_mix_type`: the leftmost `-`
whose suffix matches; the captured group after `.strip().lower()` is the
suffix without leading whitespace, lowercased (the group always ends with a
keyword letter, so only leading whitespace can be stripped). -/
def hyphenMixAtEnd : List Char → Option (List Char)
  | [] => none
  | c :: rest =>
    if c = '-' && !(rest.contains '-') && hyphenTailOk rest then
      some ((stripChars (rest.dropWhile isSpaceChar)).map Char.toLower)
    else hyphenMixAtEnd rest

/-- `extract_mix_type` (src/list_missing_tracks.py:64-76). -/
def extract_mix_type (title : String) : String :=
  match parenGroupAtEnd title.data with
  | some g =>
    let mix := (stripChars g).map Char.toLower
    if hasMixWord mix then ⟨mix⟩
    else
      match hyphenMixAtEnd title.data with
      | some g2 => ⟨g2⟩
      | none => ""
  | none =>
    match hyphenMixAtEnd title.data with
    | some g2 => ⟨g2⟩
    | none => ""

/-! ## `strip_nonmix_subtitles` (src/list_missing_tracks.py:78-84) -/

/-- Index of the first `)` in `l`, failing at a newline first (the lazy `.*?\)`
whose `.` does not match newline). -/
def rparenIdx : List Char → Option Nat
  | [] => none
  | ')' :: _ => some 0
  | '\n' :: _ => none
  | _ :: rest => (rparenIdx rest).map (· + 1)

/-- Matcher for one application of `re.sub(r'\((?!.*remix|edit|mix|version).*?\)', '', title, re.I)`
(src/list_missing_tracks.py:82).  Alternation precedence makes the negative
lookahead's alternatives `.*remix`, `edit`, `mix`, `version`: the parenthetical
is removed unless "remix" occurs anywhere in the rest of the line after the
`(`, or the contents begin immediately with edit/mix/version. -/
def parenSubtitleLenAt (l : List Char) : Option Nat :=
  match l with
  | '(' :: rest =>
    if containsSubCI ['r', 'e', 'm', 'i', 'x'] (rest.takeWhile (· ≠ '\n'))
        || startsWithCI ['e', 'd', 'i', 't'] rest || startsWithCI ['m', 'i', 'x'] rest
        || startsWithCI ['v', 'e', 'r', 's', 'i', 'o', 'n'] rest then none
    else (rparenIdx rest).map (· + 2)
  | _ => none

/-- The group of `\s*-\s*((?!remix|edit|mix|version)[^-\n]+)$`
(src/list_missing_tracks.py:83) is valid: nonempty, free of `-` and newline,
and not starting (case-insensitively) with a keyword. -/
def validHyphenGroup (v : List Char) : Bool :=
  !v.isEmpty && !(v.contains '-') && !(v.contains '\n') &&
    !(startsWithCI ['r', 'e', 'm', 'i', 'x'] v || startsWithCI ['e', 'd', 'i', 't'] v ||
      startsWithCI ['m', 'i', 'x'] v || startsWithCI ['v', 'e', 'r', 's', 'i', 'o', 'n'] v)

/-- After the `-`: some split of the leading whitespace (greedy `\s*` with
backtracking, so any split) must leave a valid group running to the end. -/
def hyphenTailMatch : List Char → Bool
  | [] => false
  | c :: rest =>
    if isSpaceChar c then hyphenTailMatch rest || validHyphenGroup (c :: rest)
    else validHyphenGroup (c :: rest)

/-- Position test for the `\s*-\s*(...)$` scan: the leading `\s*` must reach a
`-` (all skipped characters are whitespace). -/
def hyphenSubtitleAt (l : List Char) : Bool :=
  match l.dropWhile isSpaceChar with
  | '-' :: t => hyphenTailMatch t
  | _ => false

/-- Leftmost application of the end-anchored hyphen-subtitle deletion: whatever
remains from the match position is removed. -/
def stripHyphenSubtitle : List Char → List Char
  | [] => []
  | c :: rest =>
    if hyphenSubtitleAt (c :: rest) then [] else c :: stripHyphenSubtitle rest

/-- `strip_nonmix_subtitles` (src/list_missing_tracks.py:78-84). -/
def strip_nonmix_subtitles (title : String) : String :=
  ⟨stripChars (stripHyphenSubtitle (subDelete parenSubtitleLenAt title.data))⟩

/-! ## `simplify_title` (src/list_missing_tracks.py:36-44) -/

/-- The literal alternatives of
`re.sub(r'\((Original Mix|Extended Mix|Club Mix|Dub Mix|Version|Edit)\)', '', title, re.I)`
(src/list_missing_tracks.py:38). -/
def versionTagPats : List (List Char) :=
  ["(Original Mix)", "(Extended Mix)", "(Club Mix)", "(Dub Mix)", "(Version)", "(Edit)"].map
    String.data

/-- Match `\s*pat` (greedy whitespace with backtracking, so the whitespace may
also be absorbed by a pattern that starts with whitespace), returning the
remainder. -/
def wsStarLit (pat : List Char) : List Char → Option (List Char)
  | [] => if pat.isEmpty then some [] else none
  | c :: rest =>
    if isSpaceChar c then
      match wsStarLit pat rest with
      | some r => some r
      | none =>
        if startsWithCI pat (c :: rest) then some ((c :: rest).drop pat.length) else none
    else if startsWithCI pat (c :: rest) then some ((c :: rest).drop pat.length) else none

/-- Match `\s+pat`: at least one whitespace character, then `\s*pat`. -/
def wsPlusLit (pat : List Char) : List Char → Option (List Char)
  | [] => none
  | c :: rest => if isSpaceChar c then wsStarLit pat rest else none

/-- Matcher for one application of `re.sub(rf'(?i)\s*(feat\.?|featuring)\s+{re.escape(artist)}', '', title)`
(src/list_missing_tracks.py:41): leading whitespace, `feat` (with the optional
dot tried first) or `featuring`, mandatory whitespace, then the escaped artist
literal; returns the remainder after the match. -/
def featArtistRemAt (artist : List Char) (l : List Char) : Option (List Char) :=
  let after := l.dropWhile isSpaceChar
  if startsWithCI ['f', 'e', 'a', 't'] after then
    let r4 := after.drop 4
    match (match r4 with
           | '.' :: r5 => wsPlusLit artist r5
           | _ => none) with
    | some r => some r
    | none =>
      match wsPlusLit artist r4 with
      | some r => some r
      | none =>
        if startsWithCI ['f', 'e', 'a', 't', 'u', 'r', 'i', 'n', 'g'] after then
          wsPlusLit artist (after.drop 9)
        else none
  else none

mutual

/-- Embeds `re.sub(r'\s{2,}', ' ', title)` (src/list_missing_tracks.py:43):
whitespace runs of length at least two collapse to a single `' '`; isolated
whitespace characters are kept as they are. -/
def collapseMulti : List Char → List Char
  | [] => []
  | [c] => [c]
  | c1 :: c2 :: rest =>
    if isSpaceChar c1 && isSpaceChar c2 then ' ' :: collapseAfterRun rest
    else c1 :: collapseMulti (c2 :: rest)

/-- Skip the remainder of a whitespace run already collapsed to `' '`. -/
def collapseAfterRun : List Char → List Char
  | [] => []
  | c :: rest => if isSpaceChar c then collapseAfterRun rest else c :: collapseMulti rest

end

/-- `simplify_title` (src/list_missing_tracks.py:36-44).  The Python
`artist_list=None` default and the `if artist_list:` guard coincide with
folding over the empty list. -/
def simplify_title (title : String) (artist_list : List String) : String :=
  let t1 := stripChars (subDelete (litLenCI versionTagPats) title.data)
  let t2 := artist_list.foldl (fun t a => subDelete (remToLen (featArtistRemAt a.data)) t) t1
  let t3 := collapseMulti t2
  normalize_text ⟨t3⟩

/-! ## Track Parser (`extract_artist_and_title`, src/list_missing_tracks.py:46-62) -/

/-- Python `track_str.split(" - ", 1)`: split at the first occurrence of
`" - "`; `none` when the separator does not occur. -/
def splitFirstSep : List Char → Option (List Char × List Char)
  | [] => none
  | c :: rest =>
    if startsWithL [' ', '-', ' '] (c :: rest) then some ([], rest.drop 2)
    else
      match splitFirstSep rest with
      | some (a, b) => some (c :: a, b)
      | none => none

/-- Match `kw` then a single whitespace character (the tail of a
`\s<kw>\s`-shaped separator); the returned length includes the leading
whitespace character already seen. -/
def sepKwWs (kw : List Char) (rest : List Char) : Option Nat :=
  if startsWithCI kw rest then
    match rest.drop kw.length with
    | d :: _ => if isSpaceChar d then some (kw.length + 2) else none
    | [] => none
  else none

/-- Head matcher for the artist-segment splitter
`re.split(r',|\s&\s|\sand\s|\sft\.?\s|\sfeat\.?\s|\sfeaturing\s', artist_part, re.IGNORECASE)`
(src/list_missing_tracks.py:52), alternatives in the regex's order (and the
optional dots, being greedy, tried with the dot first). -/
def sepArtistAt : List Char → Option Nat
  | [] => none
  | c :: rest =>
    if c = ',' then some 1
    else if isSpaceChar c then
      sepKwWs ['&'] rest <|> sepKwWs ['a', 'n', 'd'] rest <|>
        sepKwWs ['f', 't', '.'] rest <|> sepKwWs ['f', 't'] rest <|>
        sepKwWs ['f', 'e', 'a', 't', '.'] rest <|> sepKwWs ['f', 'e', 'a', 't'] rest <|>
        sepKwWs ['f', 'e', 'a', 't', 'u', 'r', 'i', 'n', 'g'] rest
    else none

/-- Matcher for `\(feat\.? ([^)]+)\)` (`re.IGNORECASE`) at the head of `l`
(src/list_missing_tracks.py:55 and, group-less, 59): `(`, `feat`
case-insensitively, an optional dot, one mandatory space, a nonempty group of
non-`)` characters, a `)`.  Returns the group and the total match length. -/
def featClauseAt (l : List Char) : Option (List Char × Nat) :=
  match l with
  | '(' :: rest =>
    if startsWithCI ['f', 'e', 'a', 't'] rest then
      let r4 := rest.drop 4
      let core : Option (List Char × Nat) :=
        match r4 with
        | '.' :: ' ' :: r6 => some (r6, 7)
        | ' ' :: r5 => some (r5, 6)
        | _ => none
      match core with
      | some (body, consumed) =>
        let grp := body.takeWhile (· ≠ ')')
        if grp.isEmpty then none
        else if (body.drop grp.length).head? == some ')' then
          some (grp, consumed + grp.length + 1)
        else none
      | none => none
    else none
  | _ => none

/-- Match length of the group-less deletion pattern `\(feat\.? [^)]+\)`
(src/list_missing_tracks.py:59). -/
def featClauseLen (l : List Char) : Option Nat :=
  (featClauseAt l).map (fun gk => gk.2)

/-- `re.search` of the feat-clause pattern: the group at the leftmost match. -/
def featSearch : List Char → Option (List Char)
  | [] => none
  | c :: rest =>
    match featClauseAt (c :: rest) with
    | some (g, _) => some g
    | none => featSearch rest

/-- Head matcher for `re.split(r',|&|and', ...)` (src/list_missing_tracks.py:57)
— note: case-sensitive and with no word boundaries around `and`. -/
def sepFeatAt : List Char → Option Nat
  | [] => none
  | c :: rest =>
    if c = ',' then some 1
    else if c = '&' then some 1
    else if startsWithL ['a', 'n', 'd'] (c :: rest) then some 3
    else none

/-- `extract_artist_and_title` (src/list_missing_tracks.py:46-62). -/
def extract_artist_and_title (track_str : String) : List String × String :=
  match splitFirstSep track_str.data with
  | some (artist_part, title_part) =>
    let artists := (((splitSeps sepArtistAt artist_part).map stripChars).filter
        (fun p => !p.isEmpty)).map (fun p => (⟨p⟩ : String))
    match featSearch title_part with
    | some g =>
      let feat_artists := (splitSeps sepFeatAt g).map (fun p => (⟨stripChars p⟩ : String))
      let artists2 := artists ++ feat_artists.filter (fun a => !(artists.contains a))
      let title2 := stripChars (subDelete featClauseLen title_part)
      (artists2, ⟨stripChars title2⟩)
    | none => (artists, ⟨stripChars title_part⟩)
  | none => ([], ⟨stripChars track_str.data⟩)

/-! ## Reconciliation Engine Mode B (`find_matches`, src/list_missing_tracks.py:181-219)

The similarity scorer `rapidfuzz.fuzz.partial_ratio` is external library code,
absent from src/; the engine is therefore parameterised by a scorer
`f : String → String → ℚ` and a threshold (the source default is 90).  -/

/-- The per-entry derived data that `find_matches` computes for the Spotify
side (src/list_missing_tracks.py:186-191) and, identically, for each local
entry (196-201).  The permutation list order is unspecified in Python (a set);
its only use below is a maximum over scores, which is order-insensitive. -/
structure TrackView where
  artists : List String
  titleNorm : String
  mixType : String
  artistNorms : List String

/-- Compute the derived data of one track string
(src/list_missing_tracks.py:186-191 / 196-201). -/
def viewTrack (t : String) : TrackView :=
  let p := extract_artist_and_title t
  let titleForMatch := strip_nonmix_subtitles p.2
  { artists := p.1
    titleNorm := simplify_title titleForMatch p.1
    mixType := extract_mix_type p.2
    artistNorms := (generate_artist_permutations (p.1.map sanitize_local_artist)).map
      normalize_text }

/-- The inner double loop computing `best_artist_score`
(src/list_missing_tracks.py:204-209): running maximum, starting from 0, with a
strict-improvement update. -/
def bestArtistScore (f : String → String → ℚ) (spNorms locNorms : List String) : ℚ :=
  ((spNorms.map (fun s => locNorms.map (fun t => f s t))).flatten).foldl
    (fun b v => if b < v then v else b) 0

/-- The acceptance test of src/list_missing_tracks.py:211: both the best
artist score and the title score independently meet the threshold. -/
def acceptsTarget (threshold : ℚ) (f : String → String → ℚ) (sp loc : TrackView) : Bool :=
  decide (threshold ≤ bestArtistScore f sp.artistNorms loc.artistNorms) &&
    decide (threshold ≤ f sp.titleNorm loc.titleNorm)

/-- The inner target-scan loop of `find_matches`
(src/list_missing_tracks.py:193-215): skip already-claimed targets (`continue`),
skip mix-type conflicts (`continue`), accept the first remaining target whose
two scores meet the threshold (`break`), returning the claimed target's
original string. -/
def scanTargets (threshold : ℚ) (f : String → String → ℚ) (sp : TrackView)
    (matchedLocals : List String) : List (String × String) → Option String
  | [] => none
  | (lo, _) :: rest =>
    if matchedLocals.contains lo then scanTargets threshold f sp matchedLocals rest
    else if is_mix_type_conflict (some sp.mixType) (some (viewTrack lo).mixType) then
      scanTargets threshold f sp matchedLocals rest
    else if acceptsTarget threshold f sp (viewTrack lo) then some lo
    else scanTargets threshold f sp matchedLocals rest

/-- The outer loop of `find_matches` (src/list_missing_tracks.py:185-217),
recorded as one decision per source entry; the second list argument threads
the `matched_locals` set exactly as the Python mutable set is threaded. -/
def reconcile (threshold : ℚ) (f : String → String → ℚ)
    (local_tracks : List (String × String)) :
    List String → List String → List (String × Option String)
  | [], _ => []
  | sp :: sps, ms =>
    match scanTargets threshold f (viewTrack sp) ms local_tracks with
    | some lo => (sp, some lo) :: reconcile threshold f local_tracks sps (lo :: ms)
    | none => (sp, none) :: reconcile threshold f local_tracks sps ms

/-- `find_matches` (src/list_missing_tracks.py:181-219): returns
`(matched, missing, unmatched_local)`. -/
def find_matches (threshold : ℚ) (f : String → String → ℚ)
    (spotify_tracks : List String) (local_tracks : List (String × String)) :
    List String × List String × List String :=
  let ds := reconcile threshold f local_tracks spotify_tracks []
  let claimed := ds.filterMap (fun d => d.2)
  (ds.filterMap (fun d => if d.2.isSome then some d.1 else none),
    ds.filterMap (fun d => if d.2.isNone then some d.1 else none),
    (local_tracks.filter (fun t => !(claimed.contains t.1))).map (fun t => t.1))

/-! ## Theorems about the engine (claims C1 and C3) -/

theorem contains_false_iff (l : List String) (a : String) : l.contains a = false ↔ a ∉ l := by
  rw [Bool.eq_false_iff]
  exact not_congr List.elem_iff

theorem scanTargets_eq_find (threshold : ℚ) (f : String → String → ℚ) (sp : TrackView)
    (ms : List String) (locals : List (String × String)) :
    scanTargets threshold f sp ms locals =
      (locals.find? (fun t => !(ms.contains t.1)
          && !(is_mix_type_conflict (some sp.mixType) (some (viewTrack t.1).mixType))
          && acceptsTarget threshold f sp (viewTrack t.1))).map (fun t => t.1) := by
  induction locals with
  | nil => rfl
  | cons t rest ih =>
    obtain ⟨lo, ln⟩ := t
    rw [scanTargets, List.find?_cons]
    by_cases h1 : lo ∈ ms <;>
      by_cases h2 : is_mix_type_conflict (some sp.mixType) (some (viewTrack lo).mixType) = true <;>
      by_cases h3 : acceptsTarget threshold f sp (viewTrack lo) = true <;>
      simp [h1, h2, h3, ih]

/-- C1: in Mode B, the target scan for a source entry is first-fit over the
conjunction "unclaimed, no mix-type conflict, and both the best
permutation-pairing artist score and the qualifier-stripped-title score meet
the threshold": the first target satisfying all of it is claimed (scanning
stops there), and no other target is matched for this source entry. -/
theorem scanTargets_first_fit (threshold : ℚ) (f : String → String → ℚ) (sp : TrackView)
    (ms : List String) (locals : List (String × String)) :
    scanTargets threshold f sp ms locals =
      (locals.find? (fun t => !(ms.contains t.1)
          && !(is_mix_type_conflict (some sp.mixType) (some (viewTrack t.1).mixType))
          && acceptsTarget threshold f sp (viewTrack t.1))).map (fun t => t.1) :=
  scanTargets_eq_find threshold f sp ms locals

theorem scanTargets_some_unclaimed {threshold : ℚ} {f : String → String → ℚ} {sp : TrackView}
    {ms : List String} {locals : List (String × String)} {lo : String}
    (h : scanTargets threshold f sp ms locals = some lo) : ms.contains lo = false := by
  induction locals with
  | nil => simp [scanTargets] at h
  | cons t rest ih =>
    obtain ⟨lo', ln⟩ := t
    rw [scanTargets] at h
    split_ifs at h with h1 h2 h3
    · exact ih h
    · exact ih h
    · cases h
      exact Bool.eq_false_iff.mpr h1
    · exact ih h

theorem reconcile_some_unclaimed (threshold : ℚ) (f : String → String → ℚ)
    (local_tracks : List (String × String)) :
    ∀ (sps : List String) (ms : List String) (d : String × Option String),
      d ∈ reconcile threshold f local_tracks sps ms →
      ∀ t, d.2 = some t → ms.contains t = false := by
  intro sps
  induction sps with
  | nil => intro ms d hd; simp [reconcile] at hd
  | cons sp sps ih =>
    intro ms d hd t ht
    rw [reconcile] at hd
    cases hscan : scanTargets threshold f (viewTrack sp) ms local_tracks with
    | some lo =>
      rw [hscan] at hd
      rcases List.mem_cons.mp hd with rfl | hmem
      · obtain rfl : lo = t := Option.some.inj ht
        exact scanTargets_some_unclaimed hscan
      · have h2 := ih (lo :: ms) d hmem t ht
        have h3 : t ∉ lo :: ms := (contains_false_iff _ _).mp h2
        exact (contains_false_iff _ _).mpr (fun hc => h3 (List.mem_cons_of_mem _ hc))
    | none =>
      rw [hscan] at hd
      rcases List.mem_cons.mp hd with rfl | hmem
      · simp at ht
      · exact ih ms d hmem t ht

theorem reconcile_pairwise_aux (threshold : ℚ) (f : String → String → ℚ)
    (local_tracks : List (String × String)) :
    ∀ (sps : List String) (ms : List String),
      (reconcile threshold f local_tracks sps ms).Pairwise
        (fun d d' => ∀ t, d.2 = some t → d'.2 ≠ some t) := by
  intro sps
  induction sps with
  | nil => intro ms; simp [reconcile]
  | cons sp sps ih =>
    intro ms
    rw [reconcile]
    cases hscan : scanTargets threshold f (viewTrack sp) ms local_tracks with
    | some lo =>
      refine List.Pairwise.cons ?_ (ih (lo :: ms))
      intro d' hd' t ht hcontra
      obtain rfl : lo = t := Option.some.inj ht
      have h2 := reconcile_some_unclaimed threshold f local_tracks sps (lo :: ms) d' hd' lo hcontra
      exact (contains_false_iff _ _).mp h2 (List.mem_cons_self lo ms)
    | none =>
      refine List.Pairwise.cons ?_ (ih ms)
      intro d' hd' t ht
      simp at ht

/-- C3: in any single Mode B run, every target is claimed at most once — the
per-source decisions are pairwise target-disjoint — and a target entry whose
original string is never claimed appears in the unmatched output. -/
theorem find_matches_claims_targets_once (threshold : ℚ) (f : String → String → ℚ)
    (spotify_tracks : List String) (local_tracks : List (String × String)) :
    (reconcile threshold f local_tracks spotify_tracks []).Pairwise
        (fun d d' => ∀ t, d.2 = some t → d'.2 ≠ some t) ∧
      ∀ t ∈ local_tracks,
        ((reconcile threshold f local_tracks spotify_tracks []).filterMap
            (fun d => d.2)).contains t.1 = false →
          t.1 ∈ (find_matches threshold f spotify_tracks local_tracks).2.2 := by
  constructor
  · exact reconcile_pairwise_aux threshold f local_tracks spotify_tracks []
  · intro t hmem hnc
    unfold find_matches
    exact List.mem_map_of_mem _ (List.mem_filter.mpr ⟨hmem, by simp only [hnc, Bool.not_false]⟩)

/-- Witness for C3 on a concrete run: with a scorer that never reaches the
threshold, the single local entry is never claimed and appears unmatched. -/
theorem find_matches_claims_targets_once_witness :
    "c - d" ∈ (find_matches 90 (fun _ _ => 0) ["a - b"] [("c - d", "x")]).2.2 :=
  (find_matches_claims_targets_once 90 (fun _ _ => 0) ["a - b"] [("c - d", "x")]).2
    ("c - d", "x") (by decide) (by decide)

/-! ## Concrete counterexample evaluations -/

/-- C8 (code bug): the docstring of `strip_nonmix_subtitles` and the spec both
say vocabulary-matching parentheticals are preserved, but the negative
lookahead `(?!.*remix|edit|mix|version)` only tests edit/mix/version at the
start of the contents (and remix anywhere to the right), so "(Radio Edit)" is
removed. -/
theorem strip_nonmix_subtitles_removes_radio_edit :
    strip_nonmix_subtitles "Song (Radio Edit)" = "Song" := by decide

/-- C4 counterexample: stripping punctuation can create a fresh standalone `ft`
token, which a second normalization pass then deletes; normalization is not
idempotent on `"f.t"`. -/
theorem normalize_text_not_idempotent :
    normalize_text "f.t" = "ft" ∧ normalize_text (normalize_text "f.t") = "" ∧
      normalize_text (normalize_text "f.t") ≠ normalize_text "f.t" :=
  ⟨by decide, by decide, by decide⟩

/-- C7 counterexample: a featured artist differing only in letter case from an
existing artist IS added again — the dedup test `a not in artists`
(src/list_missing_tracks.py:58) is case-sensitive. -/
theorem extract_artist_and_title_case_sensitive_dedup :
    extract_artist_and_title "A - T (feat. a)" = (["A", "a"], "T") := by decide

/-! ## Character-level facts for the idempotence analysis (claim C4) -/

theorem char_eq_iff_toNat {a b : Char} : a = b ↔ a.toNat = b.toNat := by
  constructor
  · intro h; rw [h]
  · intro h; exact Char.ext (UInt32.toNat.inj h)

theorem toNat_ofNat_of_small {n : Nat} (h : n < 55296) : (Char.ofNat n).toNat = n := by
  unfold Char.ofNat
  rw [dif_pos (Or.inl h)]
  rfl

theorem toNat_toLower (c : Char) :
    (Char.toLower c).toNat = if 65 ≤ c.toNat ∧ c.toNat ≤ 90 then c.toNat + 32 else c.toNat := by
  unfold Char.toLower
  by_cases h : 65 ≤ c.toNat ∧ c.toNat ≤ 90
  · rw [if_pos h, if_pos h, toNat_ofNat_of_small (by omega)]
  · rw [if_neg h, if_neg h]

theorem toLower_eq_self_of_not_upper {c : Char} (h : ¬(65 ≤ c.toNat ∧ c.toNat ≤ 90)) :
    Char.toLower c = c := by
  unfold Char.toLower
  rw [if_neg h]

theorem toLower_idem (c : Char) : Char.toLower (Char.toLower c) = Char.toLower c := by
  apply toLower_eq_self_of_not_upper
  rw [toNat_toLower c]
  by_cases h : 65 ≤ c.toNat ∧ c.toNat ≤ 90
  · rw [if_pos h]; omega
  · rw [if_neg h]; omega

theorem spaceChar_iff {c : Char} :
    isSpaceChar c = true ↔
      (c.toNat = 32 ∨ c.toNat = 9 ∨ c.toNat = 10 ∨ c.toNat = 13 ∨
        c.toNat = 11 ∨ c.toNat = 12) := by
  simp [isSpaceChar, or_assoc]

theorem wordChar_iff {c : Char} :
    isWordChar c = true ↔
      ((65 ≤ c.toNat ∧ c.toNat ≤ 90) ∨ (97 ≤ c.toNat ∧ c.toNat ≤ 122) ∨
        (48 ≤ c.toNat ∧ c.toNat ≤ 57) ∨ c.toNat = 95) := by
  simp [isWordChar, or_assoc]

theorem isSpaceChar_toLower (c : Char) : isSpaceChar (Char.toLower c) = isSpaceChar c := by
  rw [Bool.eq_iff_iff, spaceChar_iff, spaceChar_iff, toNat_toLower]
  by_cases h : 65 ≤ c.toNat ∧ c.toNat ≤ 90
  · rw [if_pos h]; omega
  · rw [if_neg h]

theorem isWordChar_toLower {c : Char} (h : isWordChar c = true) :
    isWordChar (Char.toLower c) = true := by
  rw [wordChar_iff, toNat_toLower]
  rw [wordChar_iff] at h
  by_cases h2 : 65 ≤ c.toNat ∧ c.toNat ≤ 90
  · rw [if_pos h2]; omega
  · rw [if_neg h2]; omega

/-- The characters the normalizer can output: word characters or `' '`. -/
def goodChar (c : Char) : Prop := isWordChar c = true ∨ c = ' '

theorem goodChar_ascii {c : Char} (h : goodChar c) : c.toNat < 128 := by
  rcases h with h | rfl
  · rw [wordChar_iff] at h; omega
  · decide

theorem goodChar_space_eq {c : Char} (h : goodChar c) (hs : isSpaceChar c = true) : c = ' ' := by
  rcases h with h | rfl
  · rw [wordChar_iff] at h
    rw [spaceChar_iff] at hs
    omega
  · rfl

theorem word_not_space {c : Char} (h : isWordChar c = true) : isSpaceChar c = false := by
  rw [Bool.eq_false_iff]
  intro hs
  rw [wordChar_iff] at h
  rw [spaceChar_iff] at hs
  omega

theorem goodChar_ne_amp {c : Char} (h : goodChar c) : c ≠ '&' := by
  intro hc
  have hamp : ('&' : Char).toNat = 38 := rfl
  have h40 : c.toNat = 38 := by rw [char_eq_iff_toNat] at hc; omega
  rcases h with h | h
  · rw [wordChar_iff] at h; omega
  · have hsp : (' ' : Char).toNat = 32 := rfl
    rw [char_eq_iff_toNat] at h
    omega

theorem goodChar_toLower_ne_lparen {c : Char} (h : goodChar c) : Char.toLower c ≠ '(' := by
  intro hc
  have hlp : ('(' : Char).toNat = 40 := rfl
  have hsp : (' ' : Char).toNat = 32 := rfl
  have h40 : (Char.toLower c).toNat = 40 := by rw [char_eq_iff_toNat] at hc; omega
  rw [toNat_toLower] at h40
  rcases h with h | h
  · rw [wordChar_iff] at h
    by_cases h2 : 65 ≤ c.toNat ∧ c.toNat ≤ 90
    · rw [if_pos h2] at h40; omega
    · rw [if_neg h2] at h40; omega
  · rw [char_eq_iff_toNat] at h
    by_cases h2 : 65 ≤ c.toNat ∧ c.toNat ≤ 90
    · rw [if_pos h2] at h40; omega
    · rw [if_neg h2] at h40; omega

theorem goodChar_toLower {c : Char} (h : goodChar c) : goodChar (Char.toLower c) := by
  rcases h with h | rfl
  · exact Or.inl (isWordChar_toLower h)
  · exact Or.inr (by decide)

/-! ## List-level facts for the idempotence analysis -/

/-- No two adjacent whitespace characters. -/
def noTwoSpaces : List Char → Prop
  | [] => True
  | [_] => True
  | c1 :: c2 :: rest =>
    ¬(isSpaceChar c1 = true ∧ isSpaceChar c2 = true) ∧ noTwoSpaces (c2 :: rest)

theorem noTwoSpaces_tail {c : Char} {l : List Char} (h : noTwoSpaces (c :: l)) :
    noTwoSpaces l := by
  cases l with
  | nil => trivial
  | cons d rest => exact h.2

theorem noTwoSpaces_drop (n : Nat) {l : List Char} (h : noTwoSpaces l) :
    noTwoSpaces (l.drop n) := by
  induction n generalizing l with
  | zero => simpa using h
  | succ k ih =>
    cases l with
    | nil => trivial
    | cons c rest =>
      rw [List.drop_succ_cons]
      exact ih (noTwoSpaces_tail h)

theorem noTwoSpaces_take (k : Nat) (l : List Char) (h : noTwoSpaces l) :
    noTwoSpaces (l.take k) := by
  induction l generalizing k with
  | nil => rw [List.take_nil]; trivial
  | cons c rest ih =>
    cases k with
    | zero => trivial
    | succ m =>
      rw [List.take_succ_cons]
      cases rest with
      | nil =>
        rw [List.take_nil]
        trivial
      | cons d rest2 =>
        cases m with
        | zero => trivial
        | succ m2 =>
          rw [List.take_succ_cons]
          refine ⟨h.1, ?_⟩
          rw [← List.take_succ_cons]
          exact ih (m2 + 1) h.2

theorem dropWhile_eq_drop (p : Char → Bool) (l : List Char) :
    ∃ n, l.dropWhile p = l.drop n := by
  induction l with
  | nil => exact ⟨0, rfl⟩
  | cons c rest ih =>
    by_cases h : p c = true
    · obtain ⟨n, hn⟩ := ih
      exact ⟨n + 1, by rw [List.dropWhile_cons, if_pos h, List.drop_succ_cons, hn]⟩
    · exact ⟨0, by rw [List.dropWhile_cons, if_neg h, List.drop_zero]⟩

theorem head?_dropWhile_not (p : Char → Bool) (l : List Char) :
    ∀ c, (l.dropWhile p).head? = some c → p c = false := by
  induction l with
  | nil => intro c h; simp at h
  | cons d rest ih =>
    intro c h
    rw [List.dropWhile_cons] at h
    by_cases hd : p d = true
    · rw [if_pos hd] at h; exact ih c h
    · rw [if_neg hd] at h
      injection h with h
      subst h
      exact Bool.eq_false_iff.mpr hd

theorem dropWhile_eq_self_of_head (p : Char → Bool) {l : List Char}
    (h : ∀ c, l.head? = some c → p c = false) : l.dropWhile p = l := by
  cases l with
  | nil => rfl
  | cons c rest =>
    rw [List.dropWhile_cons, if_neg]
    rw [h c rfl]
    simp

theorem mem_of_mem_dropWhile {p : Char → Bool} {c : Char} {l : List Char}
    (h : c ∈ l.dropWhile p) : c ∈ l := by
  obtain ⟨n, hn⟩ := dropWhile_eq_drop p l
  rw [hn] at h
  exact List.mem_of_mem_drop h

theorem getLast?_drop_of_ne_nil {l : List Char} {n : Nat} (h : l.drop n ≠ []) :
    (l.drop n).getLast? = l.getLast? := by
  induction l generalizing n with
  | nil => rw [List.drop_nil] at h; exact absurd rfl h
  | cons c rest ih =>
    cases n with
    | zero => rfl
    | succ k =>
      rw [List.drop_succ_cons] at h ⊢
      rw [ih h]
      have hr : rest ≠ [] := by
        intro he; rw [he, List.drop_nil] at h; exact absurd rfl h
      cases rest with
      | nil => exact absurd rfl hr
      | cons d rest2 => rw [List.getLast?_cons_cons]

theorem stripL_head_not_space {l : List Char} :
    ∀ c, (stripL l).head? = some c → isSpaceChar c = false :=
  head?_dropWhile_not isSpaceChar l

theorem stripR_getLast_not_space {l : List Char} :
    ∀ c, (stripR l).getLast? = some c → isSpaceChar c = false := by
  intro c h
  unfold stripR at h
  rw [List.getLast?_reverse] at h
  exact head?_dropWhile_not isSpaceChar l.reverse c h

theorem mem_stripR {c : Char} {l : List Char} (h : c ∈ stripR l) : c ∈ l := by
  unfold stripR at h
  rw [List.mem_reverse] at h
  exact List.mem_reverse.mp (mem_of_mem_dropWhile h)

theorem mem_stripChars {c : Char} {l : List Char} (h : c ∈ stripChars l) : c ∈ l :=
  mem_stripR (mem_of_mem_dropWhile h)

theorem stripR_eq_take (l : List Char) : ∃ k, stripR l = l.take k := by
  obtain ⟨n, hn⟩ := dropWhile_eq_drop isSpaceChar l.reverse
  refine ⟨l.length - n, ?_⟩
  unfold stripR
  rw [hn, List.reverse_drop, List.reverse_reverse, List.length_reverse]

theorem noTwoSpaces_stripChars {l : List Char} (h : noTwoSpaces l) :
    noTwoSpaces (stripChars l) := by
  obtain ⟨k, hk⟩ := stripR_eq_take l
  obtain ⟨n, hn⟩ := dropWhile_eq_drop isSpaceChar (stripR l)
  unfold stripChars stripL
  rw [hn, hk]
  exact noTwoSpaces_drop n (noTwoSpaces_take k l h)

theorem stripChars_head_not_space {l : List Char} :
    ∀ c, (stripChars l).head? = some c → isSpaceChar c = false := fun c h =>
  head?_dropWhile_not isSpaceChar (stripR l) c h

theorem stripChars_getLast_not_space {l : List Char} :
    ∀ c, (stripChars l).getLast? = some c → isSpaceChar c = false := by
  intro c h
  obtain ⟨n, hn⟩ := dropWhile_eq_drop isSpaceChar (stripR l)
  unfold stripChars stripL at h
  rw [hn] at h
  have hne : (stripR l).drop n ≠ [] := by
    intro he; rw [he] at h; simp at h
  rw [getLast?_drop_of_ne_nil hne] at h
  exact stripR_getLast_not_space c h

theorem stripL_eq_self {l : List Char}
    (h : ∀ c, l.head? = some c → isSpaceChar c = false) : stripL l = l :=
  dropWhile_eq_self_of_head isSpaceChar h

theorem stripR_eq_self {l : List Char}
    (h : ∀ c, l.getLast? = some c → isSpaceChar c = false) : stripR l = l := by
  unfold stripR
  have h2 : l.reverse.dropWhile isSpaceChar = l.reverse :=
    dropWhile_eq_self_of_head isSpaceChar
      (fun c hc => h c (by rwa [List.head?_reverse] at hc))
  rw [h2, List.reverse_reverse]

theorem stripChars_eq_self {l : List Char}
    (hh : ∀ c, l.head? = some c → isSpaceChar c = false)
    (hl : ∀ c, l.getLast? = some c → isSpaceChar c = false) : stripChars l = l := by
  unfold stripChars
  rw [stripR_eq_self hl, stripL_eq_self hh]

/-! ## Facts about the individual normalizer stages -/

theorem noTwoSpaces_cons {d : Char} {m : List Char} (hm : noTwoSpaces m)
    (hd : ∀ e, m.head? = some e → ¬(isSpaceChar d = true ∧ isSpaceChar e = true)) :
    noTwoSpaces (d :: m) := by
  cases m with
  | nil => trivial
  | cons e rest => exact ⟨hd e rfl, hm⟩

theorem collapseWS_head_nonspace {c : Char} {rest : List Char}
    (hns : isSpaceChar c = false) : (collapseWS (c :: rest)).head? = some c := by
  cases rest with
  | nil => simp [collapseWS, hns]
  | cons e rest2 => simp [collapseWS, hns]

theorem noTwoSpaces_collapseWS : ∀ l : List Char, noTwoSpaces (collapseWS l)
  | [] => trivial
  | [c] => by
    by_cases h : isSpaceChar c = true <;> simp [collapseWS, h] <;> trivial
  | c1 :: c2 :: rest => by
    rw [collapseWS]
    by_cases h12 : (isSpaceChar c1 && isSpaceChar c2) = true
    · rw [if_pos h12]
      exact noTwoSpaces_collapseWS (c2 :: rest)
    · rw [if_neg h12]
      refine noTwoSpaces_cons (noTwoSpaces_collapseWS (c2 :: rest)) ?_
      intro e he hcon
      by_cases h2 : isSpaceChar c2 = true
      · have h1 : isSpaceChar c1 = false := by
          cases h1 : isSpaceChar c1
          · rfl
          · exact absurd (by rw [h1, h2]; rfl) h12
        rw [if_neg (by rw [h1]; simp)] at hcon
        exact absurd (h1 ▸ hcon.1) (by simp)
      · have h2f : isSpaceChar c2 = false := Bool.eq_false_iff.mpr h2
        rw [collapseWS_head_nonspace h2f] at he
        injection he with he
        subst he
        exact h2 hcon.2

theorem mem_collapseWS : ∀ {l : List Char} {c : Char}, c ∈ collapseWS l →
    c = ' ' ∨ (c ∈ l ∧ isSpaceChar c = false)
  | [], c, h => by simp [collapseWS] at h
  | [d], c, h => by
    by_cases hd : isSpaceChar d = true
    · simp [collapseWS, hd] at h
      exact Or.inl h
    · simp [collapseWS, hd] at h
      refine Or.inr ⟨?_, ?_⟩
      · rw [h]; exact List.mem_singleton_self d
      · rw [h]; exact Bool.eq_false_iff.mpr hd
  | c1 :: c2 :: rest, c, h => by
    rw [collapseWS] at h
    by_cases h12 : (isSpaceChar c1 && isSpaceChar c2) = true
    · rw [if_pos h12] at h
      rcases mem_collapseWS h with h' | ⟨h', hns⟩
      · exact Or.inl h'
      · exact Or.inr ⟨List.mem_cons_of_mem c1 h', hns⟩
    · rw [if_neg h12] at h
      rcases List.mem_cons.mp h with rfl | h'
      · by_cases h1 : isSpaceChar c1 = true
        · rw [if_pos h1]
          exact Or.inl rfl
        · rw [if_neg h1]
          exact Or.inr ⟨List.mem_cons_self _ _, Bool.eq_false_iff.mpr h1⟩
      · rcases mem_collapseWS h' with h'' | ⟨h'', hns⟩
        · exact Or.inl h''
        · exact Or.inr ⟨List.mem_cons_of_mem c1 h'', hns⟩
  termination_by l => l.length

theorem collapseWS_eq_self : ∀ {l : List Char},
    (∀ c ∈ l, isSpaceChar c = true → c = ' ') → noTwoSpaces l → collapseWS l = l
  | [], _, _ => rfl
  | [c], h, _ => by
    by_cases hc : isSpaceChar c = true
    · simp [collapseWS, hc]
      exact (h c (List.mem_singleton_self c) hc).symm
    · simp [collapseWS, hc]
  | c1 :: c2 :: rest, h, hs => by
    rw [collapseWS]
    have h12 : ¬((isSpaceChar c1 && isSpaceChar c2) = true) := by
      intro hb
      exact hs.1 ⟨(Bool.and_eq_true _ _).mp hb |>.1, (Bool.and_eq_true _ _).mp hb |>.2⟩
    rw [if_neg h12]
    have hrec : collapseWS (c2 :: rest) = c2 :: rest :=
      collapseWS_eq_self (fun c hc => h c (List.mem_cons_of_mem c1 hc)) hs.2
    rw [hrec]
    by_cases h1 : isSpaceChar c1 = true
    · rw [if_pos h1, (h c1 (List.mem_cons_self _ _) h1)]
    · rw [if_neg h1]

/-- A whitespace character in the collapse output is the literal `' '`. -/
theorem collapseWS_space_is_blank {l : List Char} {c : Char} (hm : c ∈ collapseWS l)
    (hs : isSpaceChar c = true) : c = ' ' := by
  rcases mem_collapseWS hm with h | ⟨_, hns⟩
  · exact h
  · rw [hs] at hns; cases hns

theorem noTwoSpaces_map_toLower : ∀ {l : List Char},
    noTwoSpaces l → noTwoSpaces (l.map Char.toLower)
  | [], _ => trivial
  | [c], _ => trivial
  | c1 :: c2 :: rest, h => by
    rw [List.map_cons, List.map_cons]
    refine ⟨?_, ?_⟩
    · rw [isSpaceChar_toLower, isSpaceChar_toLower]
      exact h.1
    · rw [← List.map_cons]
      exact noTwoSpaces_map_toLower h.2

theorem flatten_charRuns_snd : ∀ l : List Char, ((charRuns l).map Prod.snd).flatten = l
  | [] => rfl
  | c :: rest => by
    have hrec := flatten_charRuns_snd rest
    cases h : charRuns rest with
    | nil =>
      rw [h] at hrec
      simp only [List.map_nil, List.flatten_nil] at hrec
      subst hrec
      rfl
    | cons r rs =>
      obtain ⟨b, run⟩ := r
      rw [h] at hrec
      simp only [List.map_cons, List.flatten_cons] at hrec
      by_cases hb : isWordChar c = b
      · simp [charRuns, h, hb, hrec]
      · simp [charRuns, h, hb, hrec]

theorem removeFeatTokens_eq_self {l : List Char} (h : hasFeatToken l = false) :
    removeFeatTokens l = l := by
  unfold removeFeatTokens
  have h2 : ∀ r ∈ charRuns l, (if isFeatRun r then ([] : List Char) else r.2) = r.2 := by
    intro r hr
    rw [if_neg]
    intro hf
    have := List.any_eq_true.mpr ⟨r, hr, hf⟩
    rw [hasFeatToken] at h
    rw [this] at h
    cases h
  rw [List.map_congr_left h2]
  exact flatten_charRuns_snd l

theorem replaceAmp_eq_self {l : List Char} (h : ∀ c ∈ l, c ≠ '&') : replaceAmp l = l := by
  induction l with
  | nil => rfl
  | cons c rest ih =>
    unfold replaceAmp at ih ⊢
    rw [List.flatMap_cons, if_neg (h c (List.mem_cons_self _ _)),
      ih (fun d hd => h d (List.mem_cons_of_mem _ hd))]
    rfl

theorem unidecodeChars_eq_self {l : List Char} (h : ∀ c ∈ l, c.toNat < 128) :
    unidecodeChars l = l := by
  induction l with
  | nil => rfl
  | cons c rest ih =>
    unfold unidecodeChars at ih ⊢
    rw [List.flatMap_cons]
    rw [show unidecodeChar c = [c] from by
      unfold unidecodeChar; rw [if_pos (h c (List.mem_cons_self _ _))]]
    rw [ih (fun d hd => h d (List.mem_cons_of_mem _ hd))]
    rfl

/-! ## Idempotence of the normalizer on feat-free keys (claim C4) -/

theorem subDeleteGo_zero_cons (m : List Char → Option Nat) (c : Char) (rest : List Char) :
    subDeleteGo m 0 (c :: rest) =
      match m (c :: rest) with
      | some k => subDeleteGo m (k - 1) rest
      | none => c :: subDeleteGo m 0 rest := rfl

theorem litLenCI_countryTagPats_none {l : List Char}
    (h : ∀ c, l.head? = some c → Char.toLower c ≠ '(') :
    litLenCI countryTagPats l = none := by
  cases l with
  | nil => rfl
  | cons c rest =>
    have hc : ¬(('(' : Char) = Char.toLower c) := by
      intro he
      exact h c rfl he.symm
    simp [countryTagPats, litLenCI, startsWithCI, hc]

theorem subDelete_country_eq_self {l : List Char}
    (h : ∀ c ∈ l, Char.toLower c ≠ '(') :
    subDelete (litLenCI countryTagPats) l = l := by
  unfold subDelete
  induction l with
  | nil => rfl
  | cons c rest ih =>
    rw [subDeleteGo_zero_cons,
      litLenCI_countryTagPats_none (fun d hd => by
        have hd2 : c = d := by injection hd
        rw [← hd2]
        exact h c (List.mem_cons_self _ _))]
    rw [ih (fun d hd => h d (List.mem_cons_of_mem _ hd))]

theorem normalizeChars_good (x : List Char) :
    ∀ c ∈ normalizeChars x, goodChar c ∧ Char.toLower c = c := by
  intro c hc
  unfold normalizeChars at hc
  have hc2 := mem_stripChars hc
  rw [List.mem_map] at hc2
  obtain ⟨d, hd, rfl⟩ := hc2
  have hd2 : goodChar d := by
    rcases mem_collapseWS hd with h' | ⟨h', hns⟩
    · exact Or.inr h'
    · rw [List.mem_filter] at h'
      have := h'.2
      rcases Bool.or_eq_true _ _ |>.mp this with hw | hs
      · exact Or.inl hw
      · rw [hs] at hns; cases hns
  exact ⟨goodChar_toLower hd2, toLower_idem d⟩

theorem normalizeChars_noTwoSpaces (x : List Char) : noTwoSpaces (normalizeChars x) := by
  unfold normalizeChars
  exact noTwoSpaces_stripChars (noTwoSpaces_map_toLower (noTwoSpaces_collapseWS _))

theorem normalizeChars_space_is_blank (x : List Char) :
    ∀ c ∈ normalizeChars x, isSpaceChar c = true → c = ' ' := by
  intro c hc hs
  exact goodChar_space_eq (normalizeChars_good x c hc).1 hs

/-- Re-running every stage of `normalize_text` on an output that contains no
standalone feat/ft/featuring token is the identity. -/
theorem normalizeChars_eq_self_of_form {y : List Char}
    (hA : ∀ c ∈ y, goodChar c ∧ Char.toLower c = c)
    (hB : noTwoSpaces y)
    (hh : ∀ c, y.head? = some c → isSpaceChar c = false)
    (hl : ∀ c, y.getLast? = some c → isSpaceChar c = false)
    (hFeat : hasFeatToken y = false) :
    normalizeChars y = y := by
  unfold normalizeChars
  rw [unidecodeChars_eq_self (fun c hc => goodChar_ascii (hA c hc).1)]
  rw [removeFeatTokens_eq_self hFeat]
  rw [replaceAmp_eq_self (fun c hc => goodChar_ne_amp (hA c hc).1)]
  rw [subDelete_country_eq_self (fun c hc => goodChar_toLower_ne_lparen (hA c hc).1)]
  rw [List.filter_eq_self.mpr ?_]
  · rw [collapseWS_eq_self (fun c hc hs => goodChar_space_eq (hA c hc).1 hs) hB]
    rw [show y.map Char.toLower = y from
      (List.map_congr_left (fun c hc => (hA c hc).2)).trans (List.map_id y)]
    exact stripChars_eq_self hh hl
  · intro c hc
    rcases (hA c hc).1 with hw | rfl
    · rw [hw]; rfl
    · rfl

set_option maxHeartbeats 2000000 in
/-- C4 (amended): normalization is idempotent on every string whose normalized
key contains no standalone `feat`/`ft`/`featuring` word (punctuation stripping
can manufacture such a token — see the counterexample — and a second pass then
deletes it; on all other strings re-normalizing is a no-op). -/
theorem normalize_text_idempotent_of_no_feat_token (s : String)
    (h : hasFeatToken (normalize_text s).data = false) :
    normalize_text (normalize_text s) = normalize_text s := by
  unfold normalize_text
  apply congrArg String.mk
  exact normalizeChars_eq_self_of_form (normalizeChars_good _)
    (normalizeChars_noTwoSpaces _) stripChars_head_not_space stripChars_getLast_not_space h

/-- Witness for the amended C4 at a concrete string. -/
theorem normalize_text_idempotent_witness :
    hasFeatToken (normalize_text "Some Song").data = false ∧
      normalize_text (normalize_text "Some Song") = normalize_text "Some Song" :=
  ⟨by decide, normalize_text_idempotent_of_no_feat_token "Some Song" (by decide)⟩

/-! ## Similarity Scorer (claim C9)

Modelled from the spec (§4.5): the similarity scorer used by the engine —
`rapidfuzz.fuzz.partial_ratio` in batch mode (src/list_missing_tracks.py:207,210)
and `difflib.SequenceMatcher(None, a, b).ratio()` in live mode
(src/fuvi_download.py:181) — is external library code, absent from src/.
Following the spec's words ("a symmetric, case-insensitive edit-distance-based
ratio (e.g. longest-matching-blocks ratio)"), it is modelled as the
matching-blocks ratio `2*M/T` with `M` the longest-common-subsequence length
and `T` the total length, scoring the empty-against-empty pair 1. -/

/-- Longest common subsequence length. -/
def lcsLen : List Char → List Char → Nat
  | [], _ => 0
  | _ :: _, [] => 0
  | a :: as, b :: bs =>
    if a = b then lcsLen as bs + 1
    else max (lcsLen (a :: as) bs) (lcsLen as (b :: bs))
termination_by a b => a.length + b.length

/-- Modelled from the spec (§4.5): the engine's similarity scorer. -/
def score_model (a b : String) : ℚ :=
  if a.data.length + b.data.length = 0 then 1
  else 2 * (lcsLen a.data b.data : ℚ) / ((a.data.length : ℚ) + (b.data.length : ℚ))

theorem lcsLen_nil_left (b : List Char) : lcsLen [] b = 0 := by
  simp [lcsLen]

theorem lcsLen_nil_right (a : List Char) : lcsLen a [] = 0 := by
  cases a <;> simp [lcsLen]

theorem lcsLen_cons_cons (a b : Char) (as bs : List Char) :
    lcsLen (a :: as) (b :: bs) =
      if a = b then lcsLen as bs + 1
      else max (lcsLen (a :: as) bs) (lcsLen as (b :: bs)) := by
  simp [lcsLen]

theorem lcsLen_le_left : ∀ a b : List Char, lcsLen a b ≤ a.length
  | [], b => by rw [lcsLen_nil_left]; exact Nat.zero_le _
  | _ :: _, [] => by rw [lcsLen_nil_right]; exact Nat.zero_le _
  | a :: as, b :: bs => by
    rw [lcsLen_cons_cons]
    by_cases hab : a = b
    · rw [if_pos hab, List.length_cons]
      exact Nat.succ_le_succ (lcsLen_le_left as bs)
    · rw [if_neg hab]
      refine max_le (lcsLen_le_left (a :: as) bs) ?_
      calc lcsLen as (b :: bs) ≤ as.length := lcsLen_le_left as (b :: bs)
        _ ≤ (a :: as).length := by rw [List.length_cons]; omega
  termination_by a b => a.length + b.length

theorem lcsLen_comm : ∀ a b : List Char, lcsLen a b = lcsLen b a
  | [], b => by rw [lcsLen_nil_left, lcsLen_nil_right]
  | a :: as, [] => by rw [lcsLen_nil_left, lcsLen_nil_right]
  | a :: as, b :: bs => by
    rw [lcsLen_cons_cons, lcsLen_cons_cons]
    by_cases hab : a = b
    · rw [if_pos hab, if_pos hab.symm, lcsLen_comm as bs]
    · rw [if_neg hab, if_neg (fun h => hab h.symm)]
      rw [lcsLen_comm (a :: as) bs, lcsLen_comm as (b :: bs)]
      exact Nat.max_comm _ _
  termination_by a b => a.length + b.length

theorem lcsLen_le_right (a b : List Char) : lcsLen a b ≤ b.length := by
  rw [lcsLen_comm]
  exact lcsLen_le_left b a

theorem lcsLen_self : ∀ a : List Char, lcsLen a a = a.length
  | [] => by rw [lcsLen_nil_left]; rfl
  | a :: as => by
    rw [lcsLen_cons_cons, if_pos rfl, lcsLen_self as, List.length_cons]

/-- C9 (spec-modelled): the similarity scorer returns, for every pair of keys,
a value in [0,1]; it is symmetric; and it scores identical keys exactly 1. -/
theorem score_model_contract (a b : String) :
    0 ≤ score_model a b ∧ score_model a b ≤ 1 ∧
      score_model a b = score_model b a ∧ score_model a a = 1 := by
  refine ⟨?_, ?_, ?_, ?_⟩
  · unfold score_model
    by_cases h : a.data.length + b.data.length = 0
    · rw [if_pos h]; norm_num
    · rw [if_neg h]
      apply div_nonneg
      · positivity
      · positivity
  · unfold score_model
    by_cases h : a.data.length + b.data.length = 0
    · rw [if_pos h]
    · rw [if_neg h]
      have hpos : 0 < (a.data.length : ℚ) + (b.data.length : ℚ) := by
        have : 0 < a.data.length + b.data.length := Nat.pos_of_ne_zero h
        exact_mod_cast this
      rw [div_le_one hpos]
      have h1 : lcsLen a.data b.data ≤ a.data.length := lcsLen_le_left _ _
      have h2 : lcsLen a.data b.data ≤ b.data.length := lcsLen_le_right _ _
      have h1q : (lcsLen a.data b.data : ℚ) ≤ (a.data.length : ℚ) := by exact_mod_cast h1
      have h2q : (lcsLen a.data b.data : ℚ) ≤ (b.data.length : ℚ) := by exact_mod_cast h2
      linarith
  · unfold score_model
    by_cases h : a.data.length + b.data.length = 0
    · rw [if_pos h, if_pos (by omega)]
    · rw [if_neg h, if_neg (by omega)]
      rw [lcsLen_comm, add_comm]
  · unfold score_model
    by_cases h : a.data.length + a.data.length = 0
    · rw [if_pos h]
    · rw [if_neg h]
      rw [lcsLen_self]
      have hne : (a.data.length : ℚ) ≠ 0 := by
        have h0 : a.data.length ≠ 0 := by omega
        exact_mod_cast h0
      rw [show (a.data.length : ℚ) + (a.data.length : ℚ) = 2 * (a.data.length : ℚ) from by
        ring]
      exact div_self (mul_ne_zero two_ne_zero hne)

/-! ## Track Parser on well-formed inputs (claim C7) -/

/-- ASCII letter. -/
def isLetter (c : Char) : Bool :=
  (65 ≤ c.toNat && c.toNat ≤ 90) || (97 ≤ c.toNat && c.toNat ≤ 122)

theorem letter_iff {c : Char} :
    isLetter c = true ↔
      ((65 ≤ c.toNat ∧ c.toNat ≤ 90) ∨ (97 ≤ c.toNat ∧ c.toNat ≤ 122)) := by
  simp [isLetter]

theorem letter_not_space {c : Char} (h : isLetter c = true) : isSpaceChar c = false := by
  rw [Bool.eq_false_iff]
  intro hs
  rw [letter_iff] at h
  rw [spaceChar_iff] at hs
  omega

theorem letter_ne_char {c d : Char} (h : isLetter c = true)
    (hd : d.toNat < 65 ∨ (90 < d.toNat ∧ d.toNat < 97) ∨ 122 < d.toNat) : c ≠ d := by
  intro he
  rw [letter_iff] at h
  rw [char_eq_iff_toNat] at he
  omega

theorem stripChars_letters {n : List Char} (hn : ∀ c ∈ n, isLetter c = true) :
    stripChars n = n :=
  stripChars_eq_self
    (fun c hc => letter_not_space (hn c (List.mem_of_mem_head? hc)))
    (fun c hc => letter_not_space (hn c (List.mem_of_mem_getLast? hc)))

theorem stripChars_space_letters {n : List Char} (hn0 : n ≠ [])
    (hn : ∀ c ∈ n, isLetter c = true) : stripChars (' ' :: n) = n := by
  unfold stripChars
  have h1 : stripR (' ' :: n) = ' ' :: n := by
    apply stripR_eq_self
    intro c hc
    cases n with
    | nil => exact absurd rfl hn0
    | cons d rest =>
      rw [List.getLast?_cons_cons] at hc
      exact letter_not_space (hn c (List.mem_of_mem_getLast? hc))
  rw [h1]
  unfold stripL
  rw [List.dropWhile_cons, if_pos (by decide : isSpaceChar ' ' = true)]
  exact dropWhile_eq_self_of_head _
    (fun c hc => letter_not_space (hn c (List.mem_of_mem_head? hc)))

theorem stripChars_letters_space {n : List Char} (hn : ∀ c ∈ n, isLetter c = true) :
    stripChars (n ++ [' ']) = n := by
  unfold stripChars
  have h1 : stripR (n ++ [' ']) = n := by
    unfold stripR
    rw [List.reverse_append]
    show (([' '] ++ n.reverse).dropWhile isSpaceChar).reverse = n
    rw [List.singleton_append, List.dropWhile_cons,
      if_pos (by decide : isSpaceChar ' ' = true)]
    rw [dropWhile_eq_self_of_head _ (fun c hc => by
      rw [List.head?_reverse] at hc
      exact letter_not_space (hn c (List.mem_of_mem_getLast? hc)))]
    exact List.reverse_reverse n
  rw [h1]
  exact dropWhile_eq_self_of_head _
    (fun c hc => letter_not_space (hn c (List.mem_of_mem_head? hc)))

theorem intercalate_single (sep x : List Char) : List.intercalate sep [x] = x := by
  simp [List.intercalate]

theorem intercalate_cons2 (sep x y : List Char) (t : List (List Char)) :
    List.intercalate sep (x :: y :: t) = x ++ sep ++ List.intercalate sep (y :: t) := by
  simp [List.intercalate, List.intersperse]

theorem mem_intercalate_comma {c : Char} :
    ∀ {names : List (List Char)}, c ∈ List.intercalate [',', ' '] names →
      c = ',' ∨ c = ' ' ∨ ∃ n ∈ names, c ∈ n := by
  intro names
  induction names with
  | nil => intro h; simp [List.intercalate] at h
  | cons x t ih =>
    intro h
    cases t with
    | nil =>
      rw [intercalate_single] at h
      exact Or.inr (Or.inr ⟨x, List.mem_singleton_self x, h⟩)
    | cons y t2 =>
      rw [intercalate_cons2] at h
      rcases List.mem_append.mp h with h1 | h2
      · rcases List.mem_append.mp h1 with h3 | h4
        · exact Or.inr (Or.inr ⟨x, List.mem_cons_self _ _, h3⟩)
        · rcases List.mem_cons.mp h4 with h5 | h6
          · exact Or.inl h5
          · rw [List.mem_singleton] at h6
            exact Or.inr (Or.inl h6)
      · rcases ih h2 with h' | h' | ⟨n, hn, hc⟩
        · exact Or.inl h'
        · exact Or.inr (Or.inl h')
        · exact Or.inr (Or.inr ⟨n, List.mem_cons_of_mem x hn, hc⟩)

theorem splitFirstSep_append {x : List Char} (y : List Char) (hx : ∀ c ∈ x, c ≠ '-') :
    splitFirstSep (x ++ ' ' :: '-' :: ' ' :: y) = some (x, y) := by
  induction x with
  | nil =>
    show splitFirstSep (' ' :: '-' :: ' ' :: y) = some ([], y)
    rw [splitFirstSep, if_pos (by rfl)]
    rfl
  | cons c x' ih =>
    rw [List.cons_append, splitFirstSep, if_neg, ih (fun d hd => hx d (List.mem_cons_of_mem c hd))]
    intro hs
    rw [show startsWithL [' ', '-', ' '] (c :: (x' ++ ' ' :: '-' :: ' ' :: y)) =
        ((' ' == c) && startsWithL ['-', ' '] (x' ++ ' ' :: '-' :: ' ' :: y)) from rfl] at hs
    have h2 := (Bool.and_eq_true _ _).mp hs
    cases x' with
    | nil => simp [startsWithL] at h2
    | cons d x'' =>
      have h3 := h2.2
      rw [List.cons_append,
        show startsWithL ['-', ' '] (d :: (x'' ++ ' ' :: '-' :: ' ' :: y)) =
          (('-' == d) && startsWithL [' '] (x'' ++ ' ' :: '-' :: ' ' :: y)) from rfl] at h3
      have h4 := ((Bool.and_eq_true _ _).mp h3).1
      rw [beq_iff_eq] at h4
      exact hx d (List.mem_cons_of_mem c (List.mem_cons_self _ _)) h4.symm

theorem splitSepsGo_zero_cons (m : List Char → Option Nat) (c : Char) (rest : List Char) :
    splitSepsGo m 0 (c :: rest) =
      match m (c :: rest) with
      | some k => [] :: splitSepsGo m (k - 1) rest
      | none =>
        match splitSepsGo m 0 rest with
        | [] => [[c]]
        | p :: ps => (c :: p) :: ps := rfl

theorem splitSepsGo_ne_nil (m : List Char → Option Nat) :
    ∀ (n : Nat) (l : List Char), splitSepsGo m n l ≠ []
  | _, [] => by simp [splitSepsGo]
  | n + 1, c :: rest => by
    rw [show splitSepsGo m (n + 1) (c :: rest) = splitSepsGo m n rest from rfl]
    exact splitSepsGo_ne_nil m n rest
  | 0, c :: rest => by
    rw [splitSepsGo_zero_cons]
    cases hm : m (c :: rest) with
    | some k => simp
    | none =>
      cases h2 : splitSepsGo m 0 rest with
      | nil => simp
      | cons p ps => simp

/-- Prepend onto the first split piece. -/
def consPiece (w : List Char) : List (List Char) → List (List Char)
  | [] => [w]
  | p :: ps => (w ++ p) :: ps

theorem sepKwWs_none_of_next {kw l : List Char}
    (h : ∀ d, (l.drop kw.length).head? = some d → isSpaceChar d = false) :
    sepKwWs kw l = none := by
  unfold sepKwWs
  by_cases hs : startsWithCI kw l = true
  · rw [if_pos hs]
    cases hd : l.drop kw.length with
    | nil => rfl
    | cons d rest => simp [h d (by rw [hd]; rfl)]
  · rw [if_neg hs]

theorem sepKwWs_none_of_not_starts {kw l : List Char} (h : startsWithCI kw l = false) :
    sepKwWs kw l = none := by
  simp [sepKwWs, h]

theorem startsWithCI_long_false : ∀ (kw n r : List Char),
    (∀ c ∈ kw, Char.toLower c ≠ ',') → n.length < kw.length →
    (r = [] ∨ ∃ r2, r = ',' :: r2) → startsWithCI kw (n ++ r) = false
  | [], n, r, _, hlen, _ => by simp at hlen
  | k :: kw', [], r, hkw, _, hr => by
    rcases hr with rfl | ⟨r2, rfl⟩
    · rfl
    · show startsWithCI (k :: kw') (',' :: r2) = false
      have hb : (Char.toLower k == Char.toLower ',') = false := by
        rw [beq_eq_false_iff_ne]
        intro he
        exact hkw k (List.mem_cons_self _ _) (by rw [he]; rfl)
      rw [show startsWithCI (k :: kw') (',' :: r2) =
          ((Char.toLower k == Char.toLower ',') && startsWithCI kw' r2) from rfl, hb]
      rfl
  | k :: kw', c :: n', r, hkw, hlen, hr => by
    rw [List.cons_append,
      show startsWithCI (k :: kw') (c :: (n' ++ r)) =
        ((Char.toLower k == Char.toLower c) && startsWithCI kw' (n' ++ r)) from rfl,
      startsWithCI_long_false kw' n' r (fun d hd => hkw d (List.mem_cons_of_mem _ hd))
        (by simp at hlen ⊢; omega) hr]
    simp

theorem sepKwWs_letters_comma (kw n r : List Char)
    (hkw : ∀ c ∈ kw, Char.toLower c ≠ ',')
    (hn : ∀ c ∈ n, isLetter c = true)
    (hr : r = [] ∨ ∃ r2, r = ',' :: r2) :
    sepKwWs kw (n ++ r) = none := by
  by_cases hlen : kw.length ≤ n.length
  · apply sepKwWs_none_of_next
    intro d hd
    rw [List.drop_append_of_le_length hlen] at hd
    cases hnd : n.drop kw.length with
    | nil =>
      rw [hnd, List.nil_append] at hd
      rcases hr with rfl | ⟨r2, rfl⟩
      · simp at hd
      · injection hd with hd
        rw [← hd]
        rfl
    | cons e rest2 =>
      rw [hnd, List.cons_append] at hd
      injection hd with hd
      have he : e ∈ n := by
        have h3 : e ∈ n.drop kw.length := by rw [hnd]; exact List.mem_cons_self _ _
        exact List.mem_of_mem_drop h3
      rw [← hd]
      exact letter_not_space (hn e he)
  · exact sepKwWs_none_of_not_starts
      (startsWithCI_long_false kw n r hkw (by omega) hr)

theorem sepArtistAt_letter {c : Char} (hc : isLetter c = true) (r : List Char) :
    sepArtistAt (c :: r) = none := by
  have h1 : c ≠ ',' := letter_ne_char hc (Or.inl (by decide))
  have h2 : isSpaceChar c = false := letter_not_space hc
  simp [sepArtistAt, h1, h2]

theorem sepArtistAt_comma (r : List Char) : sepArtistAt (',' :: r) = some 1 := rfl

theorem sepArtistAt_space_name (n r : List Char)
    (hn : ∀ c ∈ n, isLetter c = true)
    (hr : r = [] ∨ ∃ r2, r = ',' :: r2) :
    sepArtistAt (' ' :: (n ++ r)) = none := by
  have hsp : ¬((' ' : Char) = ',') := by decide
  show (if (' ' : Char) = ',' then some 1
    else if isSpaceChar ' ' then
      sepKwWs ['&'] (n ++ r) <|> sepKwWs ['a', 'n', 'd'] (n ++ r) <|>
        sepKwWs ['f', 't', '.'] (n ++ r) <|> sepKwWs ['f', 't'] (n ++ r) <|>
        sepKwWs ['f', 'e', 'a', 't', '.'] (n ++ r) <|> sepKwWs ['f', 'e', 'a', 't'] (n ++ r) <|>
        sepKwWs ['f', 'e', 'a', 't', 'u', 'r', 'i', 'n', 'g'] (n ++ r)
    else none) = none
  rw [if_neg hsp, if_pos (by decide : isSpaceChar ' ' = true)]
  rw [sepKwWs_letters_comma ['&'] n r (by decide) hn hr,
    sepKwWs_letters_comma ['a', 'n', 'd'] n r (by decide) hn hr,
    sepKwWs_letters_comma ['f', 't', '.'] n r (by decide) hn hr,
    sepKwWs_letters_comma ['f', 't'] n r (by decide) hn hr,
    sepKwWs_letters_comma ['f', 'e', 'a', 't', '.'] n r (by decide) hn hr,
    sepKwWs_letters_comma ['f', 'e', 'a', 't'] n r (by decide) hn hr,
    sepKwWs_letters_comma ['f', 'e', 'a', 't', 'u', 'r', 'i', 'n', 'g'] n r (by decide) hn hr]
  rfl

theorem splitSepsGo_letters : ∀ (n r : List Char), (∀ c ∈ n, isLetter c = true) →
    splitSepsGo sepArtistAt 0 (n ++ r) = consPiece n (splitSepsGo sepArtistAt 0 r)
  | [], r, _ => by
    rw [List.nil_append]
    cases h : splitSepsGo sepArtistAt 0 r with
    | nil => exact absurd h (splitSepsGo_ne_nil _ 0 r)
    | cons p ps => rfl
  | c :: n', r, hn => by
    rw [List.cons_append, splitSepsGo_zero_cons,
      sepArtistAt_letter (hn c (List.mem_cons_self _ _)) _,
      splitSepsGo_letters n' r (fun d hd => hn d (List.mem_cons_of_mem _ hd))]
    cases h : splitSepsGo sepArtistAt 0 r with
    | nil => exact absurd h (splitSepsGo_ne_nil _ 0 r)
    | cons p ps => rfl

theorem splitSeps_artist_names : ∀ (n0 : List Char) (names : List (List Char)),
    (∀ c ∈ n0, isLetter c = true) →
    (∀ n ∈ names, ∀ c ∈ n, isLetter c = true) →
    splitSeps sepArtistAt (List.intercalate [',', ' '] (n0 :: names)) =
      n0 :: names.map (fun n => ' ' :: n)
  | n0, [], h0, _ => by
    rw [intercalate_single]
    unfold splitSeps
    have h2 := splitSepsGo_letters n0 [] h0
    rw [List.append_nil] at h2
    rw [h2]
    simp [consPiece, splitSepsGo]
  | n0, n1 :: names', h0, hns => by
    have hshape : ∃ rest', List.intercalate [',', ' '] (n1 :: names') = n1 ++ rest' ∧
        (rest' = [] ∨ ∃ r2, rest' = ',' :: r2) := by
      cases names' with
      | nil => exact ⟨[], by rw [intercalate_single, List.append_nil], Or.inl rfl⟩
      | cons n2 t =>
        refine ⟨',' :: ' ' :: List.intercalate [',', ' '] (n2 :: t), ?_, Or.inr ⟨_, rfl⟩⟩
        rw [intercalate_cons2]
        simp
    obtain ⟨rest', hre, hrr⟩ := hshape
    have hn1 : ∀ c ∈ n1, isLetter c = true := hns n1 (List.mem_cons_self _ _)
    have ih := splitSeps_artist_names n1 names' hn1
      (fun n hn => hns n (List.mem_cons_of_mem _ hn))
    unfold splitSeps at ih ⊢
    rw [intercalate_cons2, List.append_assoc,
      show ([',', ' '] : List Char) ++ List.intercalate [',', ' '] (n1 :: names') =
        ',' :: ' ' :: List.intercalate [',', ' '] (n1 :: names') from rfl,
      splitSepsGo_letters n0 _ h0,
      splitSepsGo_zero_cons, sepArtistAt_comma]
    show consPiece n0 ([] :: splitSepsGo sepArtistAt 0
      (' ' :: List.intercalate [',', ' '] (n1 :: names'))) = _
    rw [splitSepsGo_zero_cons, hre, sepArtistAt_space_name n1 rest' hn1 hrr, ← hre, ih]
    simp [consPiece]

theorem featClauseAt_cons_ne {c : Char} (l : List Char) (h : c ≠ '(') :
    featClauseAt (c :: l) = none := by
  unfold featClauseAt
  split
  · next rest heq =>
    injection heq with h1 h2
    exact absurd h1 h
  · rfl

theorem takeWhile_ne_rparen {F : List Char} (h : ∀ c ∈ F, c ≠ ')') :
    (F ++ [')']).takeWhile (fun c => c ≠ ')') = F := by
  induction F with
  | nil => rfl
  | cons c F' ih =>
    rw [List.cons_append, List.takeWhile_cons]
    rw [if_pos (by simp [h c (List.mem_cons_self _ _)])]
    rw [ih (fun d hd => h d (List.mem_cons_of_mem _ hd))]

theorem featClauseAt_clause {F : List Char} (hF : ∀ c ∈ F, c ≠ ')') (hF0 : F ≠ []) :
    featClauseAt ('(' :: 'f' :: 'e' :: 'a' :: 't' :: '.' :: ' ' :: (F ++ [')'])) =
      some (F, F.length + 8) := by
  have hstart : startsWithCI ['f', 'e', 'a', 't']
      ('f' :: 'e' :: 'a' :: 't' :: '.' :: ' ' :: (F ++ [')'])) = true := rfl
  show (if startsWithCI ['f', 'e', 'a', 't']
      ('f' :: 'e' :: 'a' :: 't' :: '.' :: ' ' :: (F ++ [')'])) = true then
      let r4 := ('f' :: 'e' :: 'a' :: 't' :: '.' :: ' ' :: (F ++ [')'])).drop 4
      let core : Option (List Char × Nat) :=
        match r4 with
        | '.' :: ' ' :: r6 => some (r6, 7)
        | ' ' :: r5 => some (r5, 6)
        | _ => none
      match core with
      | some (body, consumed) =>
        let grp := body.takeWhile (· ≠ ')')
        if grp.isEmpty then none
        else if (body.drop grp.length).head? == some ')' then
          some (grp, consumed + grp.length + 1)
        else none
      | none => none
    else none) = some (F, F.length + 8)
  rw [if_pos hstart]
  show (let grp := (F ++ [')']).takeWhile (· ≠ ')')
    if grp.isEmpty then none
    else if ((F ++ [')']).drop grp.length).head? == some ')' then
      some (grp, 7 + grp.length + 1)
    else none) = some (F, F.length + 8)
  rw [show ((F ++ [')']).takeWhile (· ≠ ')')) = F from takeWhile_ne_rparen hF]
  rw [if_neg (by cases F with | nil => exact absurd rfl hF0 | cons c F' => simp)]
  rw [if_pos (by rw [List.drop_left]; rfl)]
  rw [show 7 + F.length + 1 = F.length + 8 from by omega]

theorem featSearch_append {x r : List Char} (hx : ∀ c ∈ x, c ≠ '(') {g : List Char} {k : Nat}
    (h : featClauseAt r = some (g, k)) : featSearch (x ++ r) = some g := by
  induction x with
  | nil =>
    rw [List.nil_append]
    cases r with
    | nil => simp [featClauseAt] at h
    | cons c rest =>
      rw [featSearch, h]
  | cons c x' ih =>
    rw [List.cons_append, featSearch,
      featClauseAt_cons_ne _ (hx c (List.mem_cons_self _ _))]
    exact ih (fun d hd => hx d (List.mem_cons_of_mem _ hd))

theorem startsWithL_append_restrict : ∀ (p s r : List Char), (∀ c ∈ p, c ≠ ',') →
    (r = [] ∨ ∃ r2, r = ',' :: r2) → startsWithL p (s ++ r) = true → startsWithL p s = true
  | [], _, _, _, _, _ => rfl
  | q :: p', [], r, hp, hr, h => by
    exfalso
    rcases hr with rfl | ⟨r2, rfl⟩
    · rw [List.nil_append] at h
      exact absurd h (by rw [show startsWithL (q :: p') [] = false from rfl]; simp)
    · rw [List.nil_append,
        show startsWithL (q :: p') (',' :: r2) = ((q == ',') && startsWithL p' r2) from
          rfl] at h
      have h2 := ((Bool.and_eq_true _ _).mp h).1
      rw [beq_iff_eq] at h2
      exact hp q (List.mem_cons_self _ _) h2
  | q :: p', c :: s', r, hp, hr, h => by
    rw [List.cons_append,
      show startsWithL (q :: p') (c :: (s' ++ r)) = ((q == c) && startsWithL p' (s' ++ r)) from
        rfl] at h
    have h2 := (Bool.and_eq_true _ _).mp h
    rw [show startsWithL (q :: p') (c :: s') = ((q == c) && startsWithL p' s') from rfl,
      h2.1, startsWithL_append_restrict p' s' r (fun d hd => hp d (List.mem_cons_of_mem _ hd))
        hr h2.2]
    rfl

theorem sepFeatAt_comma (r : List Char) : sepFeatAt (',' :: r) = some 1 := rfl

theorem sepFeatAt_space (l : List Char) : sepFeatAt (' ' :: l) = none := by
  simp [sepFeatAt, startsWithL]

theorem splitSepsGo_feat_letters : ∀ (n r : List Char), (∀ c ∈ n, isLetter c = true) →
    containsSub ['a', 'n', 'd'] n = false → (r = [] ∨ ∃ r2, r = ',' :: r2) →
    splitSepsGo sepFeatAt 0 (n ++ r) = consPiece n (splitSepsGo sepFeatAt 0 r)
  | [], r, _, _, _ => by
    rw [List.nil_append]
    cases h : splitSepsGo sepFeatAt 0 r with
    | nil => exact absurd h (splitSepsGo_ne_nil _ 0 r)
    | cons p ps => rfl
  | c :: n', r, hn, hand, hr => by
    rw [show containsSub ['a', 'n', 'd'] (c :: n') =
        (startsWithL ['a', 'n', 'd'] (c :: n') || containsSub ['a', 'n', 'd'] n') from
        rfl] at hand
    have handP := Bool.or_eq_false_iff.mp hand
    have hsep : sepFeatAt (c :: (n' ++ r)) = none := by
      have hc1 : c ≠ ',' := letter_ne_char (hn c (List.mem_cons_self _ _)) (Or.inl (by decide))
      have hc2 : c ≠ '&' := letter_ne_char (hn c (List.mem_cons_self _ _)) (Or.inl (by decide))
      have h3 : startsWithL ['a', 'n', 'd'] (c :: (n' ++ r)) = false := by
        cases hax : startsWithL ['a', 'n', 'd'] (c :: (n' ++ r)) with
        | false => rfl
        | true =>
          rw [← List.cons_append] at hax
          have := startsWithL_append_restrict ['a', 'n', 'd'] (c :: n') r (by decide) hr hax
          rw [handP.1] at this
          cases this
      simp [sepFeatAt, hc1, hc2, h3]
    rw [List.cons_append, splitSepsGo_zero_cons, hsep,
      splitSepsGo_feat_letters n' r (fun d hd => hn d (List.mem_cons_of_mem _ hd))
        handP.2 hr]
    cases h : splitSepsGo sepFeatAt 0 r with
    | nil => exact absurd h (splitSepsGo_ne_nil _ 0 r)
    | cons p ps => rfl

theorem splitSeps_feat_names : ∀ (n0 : List Char) (names : List (List Char)),
    (∀ c ∈ n0, isLetter c = true) → containsSub ['a', 'n', 'd'] n0 = false →
    (∀ n ∈ names, (∀ c ∈ n, isLetter c = true) ∧ containsSub ['a', 'n', 'd'] n = false) →
    splitSeps sepFeatAt (List.intercalate [',', ' '] (n0 :: names)) =
      n0 :: names.map (fun n => ' ' :: n)
  | n0, [], h0, hand0, _ => by
    rw [intercalate_single]
    unfold splitSeps
    have h2 := splitSepsGo_feat_letters n0 [] h0 hand0 (Or.inl rfl)
    rw [List.append_nil] at h2
    rw [h2]
    simp [consPiece, splitSepsGo]
  | n0, n1 :: names', h0, hand0, hns => by
    have hshape : ∃ rest', List.intercalate [',', ' '] (n1 :: names') = n1 ++ rest' ∧
        (rest' = [] ∨ ∃ r2, rest' = ',' :: r2) := by
      cases names' with
      | nil => exact ⟨[], by rw [intercalate_single, List.append_nil], Or.inl rfl⟩
      | cons n2 t =>
        refine ⟨',' :: ' ' :: List.intercalate [',', ' '] (n2 :: t), ?_, Or.inr ⟨_, rfl⟩⟩
        rw [intercalate_cons2]
        simp
    obtain ⟨rest', hre, hrr⟩ := hshape
    have hn1 := hns n1 (List.mem_cons_self _ _)
    have ih := splitSeps_feat_names n1 names' hn1.1 hn1.2
      (fun n hn => hns n (List.mem_cons_of_mem _ hn))
    unfold splitSeps at ih ⊢
    rw [intercalate_cons2, List.append_assoc,
      show ([',', ' '] : List Char) ++ List.intercalate [',', ' '] (n1 :: names') =
        ',' :: ' ' :: List.intercalate [',', ' '] (n1 :: names') from rfl,
      splitSepsGo_feat_letters n0 _ h0 hand0 (Or.inr ⟨_, rfl⟩),
      splitSepsGo_zero_cons, sepFeatAt_comma]
    show consPiece n0 ([] :: splitSepsGo sepFeatAt 0
      (' ' :: List.intercalate [',', ' '] (n1 :: names'))) = _
    rw [splitSepsGo_zero_cons, sepFeatAt_space, ih]
    simp [consPiece]

theorem subDeleteGo_skip (m : List Char → Option Nat) :
    ∀ (n : Nat) (l : List Char), subDeleteGo m n l = subDeleteGo m 0 (l.drop n)
  | 0, l => by rw [List.drop_zero]
  | n + 1, [] => by rw [List.drop_nil]; rfl
  | n + 1, c :: rest => by
    rw [List.drop_succ_cons,
      show subDeleteGo m (n + 1) (c :: rest) = subDeleteGo m n rest from rfl]
    exact subDeleteGo_skip m n rest

theorem subDeleteGo_append_headfail (m : List Char → Option Nat) :
    ∀ (x r : List Char), (∀ c ∈ x, ∀ l', m (c :: l') = none) →
    subDeleteGo m 0 (x ++ r) = x ++ subDeleteGo m 0 r
  | [], r, _ => by rw [List.nil_append, List.nil_append]
  | c :: x', r, h => by
    rw [List.cons_append, subDeleteGo_zero_cons, h c (List.mem_cons_self _ _) _,
      subDeleteGo_append_headfail m x' r (fun d hd => h d (List.mem_cons_of_mem _ hd))]
    rfl

theorem intercalate_shape (n0 : List Char) (names : List (List Char)) :
    ∃ r', List.intercalate [',', ' '] (n0 :: names) = n0 ++ r' ∧
      (r' = [] ∨ ∃ r2, r' = ',' :: r2) := by
  cases names with
  | nil => exact ⟨[], by rw [intercalate_single, List.append_nil], Or.inl rfl⟩
  | cons n2 t =>
    refine ⟨',' :: ' ' :: List.intercalate [',', ' '] (n2 :: t), ?_, Or.inr ⟨_, rfl⟩⟩
    rw [intercalate_cons2]
    simp

theorem removeFeatClause_title {T F : List Char}
    (hT : ∀ c ∈ T, isLetter c = true) (hF : ∀ c ∈ F, c ≠ ')') (hF0 : F ≠ []) :
    subDelete featClauseLen
        ((T ++ [' ']) ++ ('(' :: 'f' :: 'e' :: 'a' :: 't' :: '.' :: ' ' :: (F ++ [')']))) =
      T ++ [' '] := by
  unfold subDelete
  rw [subDeleteGo_append_headfail _ (T ++ [' ']) _ (fun c hc l' => by
    unfold featClauseLen
    rw [featClauseAt_cons_ne l' ?_]
    · rfl
    · rcases List.mem_append.mp hc with h1 | h2
      · exact letter_ne_char (hT c h1) (Or.inl (by decide))
      · rw [List.mem_singleton] at h2
        subst h2
        decide)]
  rw [subDeleteGo_zero_cons,
    show featClauseLen ('(' :: 'f' :: 'e' :: 'a' :: 't' :: '.' :: ' ' :: (F ++ [')'])) =
      some (F.length + 8) from by
        unfold featClauseLen
        rw [featClauseAt_clause hF hF0]
        rfl]
  show (T ++ [' ']) ++
      subDeleteGo featClauseLen (F.length + 8 - 1)
        ('f' :: 'e' :: 'a' :: 't' :: '.' :: ' ' :: (F ++ [')'])) = T ++ [' ']
  rw [subDeleteGo_skip,
    show ('f' :: 'e' :: 'a' :: 't' :: '.' :: ' ' :: (F ++ [')'])).drop (F.length + 8 - 1)
      = [] from by
        apply List.drop_eq_nil_of_le
        simp]
  rw [show subDeleteGo featClauseLen 0 [] = [] from rfl, List.append_nil]

/-- C7 (amended): for a track string built from well-formed artist names (ASCII
letters; featured names additionally free of the substring "and", which the
undelimited splitter `re.split(r',|&|and', ...)` would cut), a letters-only
title, and a trailing `(feat. ...)` clause, parsing extracts the featured
names, merges them into the artist list deduplicated by EXACT (case-sensitive)
string equality against the existing entries — a featured artist differing
only in letter case from an existing artist is added again — and removes the
clause from the title. -/
theorem extract_artist_and_title_feat_merge
    (baseNames featNames : List (List Char)) (T : List Char)
    (hB0 : baseNames ≠ []) (hF0 : featNames ≠ [])
    (hB : ∀ n ∈ baseNames, n ≠ [] ∧ ∀ c ∈ n, isLetter c = true)
    (hF : ∀ n ∈ featNames, n ≠ [] ∧ (∀ c ∈ n, isLetter c = true) ∧
      containsSub ['a', 'n', 'd'] n = false)
    (hT : ∀ c ∈ T, isLetter c = true) :
    extract_artist_and_title
        ⟨List.intercalate [',', ' '] baseNames ++ ' ' :: '-' :: ' ' ::
          (T ++ ' ' :: '(' :: 'f' :: 'e' :: 'a' :: 't' :: '.' :: ' ' ::
            (List.intercalate [',', ' '] featNames ++ [')']))⟩ =
      ((baseNames.map fun p => (⟨p⟩ : String)) ++
          ((featNames.map fun p => (⟨p⟩ : String)).filter
            (fun a => !((baseNames.map fun p => (⟨p⟩ : String)).contains a))),
        (⟨T⟩ : String)) := by
  obtain ⟨b0, bRest, rfl⟩ : ∃ b0 bRest, baseNames = b0 :: bRest := by
    cases baseNames with
    | nil => exact absurd rfl hB0
    | cons a b => exact ⟨a, b, rfl⟩
  obtain ⟨f0, fRest, rfl⟩ : ∃ f0 fRest, featNames = f0 :: fRest := by
    cases featNames with
    | nil => exact absurd rfl hF0
    | cons a b => exact ⟨a, b, rfl⟩
  have hFj0 : List.intercalate [',', ' '] (f0 :: fRest) ≠ [] := by
    obtain ⟨r', hre, _⟩ := intercalate_shape f0 fRest
    rw [hre]
    cases hf0 : f0 with
    | nil => exact absurd hf0 (hF f0 (List.mem_cons_self _ _)).1
    | cons c f0' => simp
  have hFjP : ∀ c ∈ List.intercalate [',', ' '] (f0 :: fRest), c ≠ ')' := by
    intro c hc
    rcases mem_intercalate_comma hc with rfl | rfl | ⟨n, hn, hcn⟩
    · decide
    · decide
    · exact letter_ne_char ((hF n hn).2.1 c hcn) (Or.inl (by decide))
  have hAdash : ∀ c ∈ List.intercalate [',', ' '] (b0 :: bRest), c ≠ '-' := by
    intro c hc
    rcases mem_intercalate_comma hc with rfl | rfl | ⟨n, hn, hcn⟩
    · decide
    · decide
    · exact letter_ne_char ((hB n hn).2 c hcn) (Or.inl (by decide))
  have hsplit : splitFirstSep
      (String.mk (List.intercalate [',', ' '] (b0 :: bRest) ++ ' ' :: '-' :: ' ' ::
        (T ++ ' ' :: '(' :: 'f' :: 'e' :: 'a' :: 't' :: '.' :: ' ' ::
          (List.intercalate [',', ' '] (f0 :: fRest) ++ [')'])))).data =
      some (List.intercalate [',', ' '] (b0 :: bRest),
        T ++ ' ' :: '(' :: 'f' :: 'e' :: 'a' :: 't' :: '.' :: ' ' ::
          (List.intercalate [',', ' '] (f0 :: fRest) ++ [')'])) :=
    splitFirstSep_append _ hAdash
  have htpassoc : T ++ ' ' :: '(' :: 'f' :: 'e' :: 'a' :: 't' :: '.' :: ' ' ::
      (List.intercalate [',', ' '] (f0 :: fRest) ++ [')']) =
      (T ++ [' ']) ++ ('(' :: 'f' :: 'e' :: 'a' :: 't' :: '.' :: ' ' ::
        (List.intercalate [',', ' '] (f0 :: fRest) ++ [')'])) := by simp
  have hsearch : featSearch (T ++ ' ' :: '(' :: 'f' :: 'e' :: 'a' :: 't' :: '.' :: ' ' ::
      (List.intercalate [',', ' '] (f0 :: fRest) ++ [')'])) =
      some (List.intercalate [',', ' '] (f0 :: fRest)) := by
    rw [htpassoc]
    refine featSearch_append ?_ (featClauseAt_clause hFjP hFj0)
    intro c hc
    rcases List.mem_append.mp hc with h1 | h2
    · exact letter_ne_char (hT c h1) (Or.inl (by decide))
    · rw [List.mem_singleton] at h2
      subst h2
      decide
  have hsplitA : splitSeps sepArtistAt (List.intercalate [',', ' '] (b0 :: bRest)) =
      b0 :: bRest.map (fun n => ' ' :: n) :=
    splitSeps_artist_names b0 bRest (hB b0 (List.mem_cons_self _ _)).2
      (fun n hn => (hB n (List.mem_cons_of_mem _ hn)).2)
  have hfsplit : splitSeps sepFeatAt (List.intercalate [',', ' '] (f0 :: fRest)) =
      f0 :: fRest.map (fun n => ' ' :: n) :=
    splitSeps_feat_names f0 fRest (hF f0 (List.mem_cons_self _ _)).2.1
      (hF f0 (List.mem_cons_self _ _)).2.2
      (fun n hn => ⟨(hF n (List.mem_cons_of_mem _ hn)).2.1,
        (hF n (List.mem_cons_of_mem _ hn)).2.2⟩)
  have hremove : subDelete featClauseLen
      (T ++ ' ' :: '(' :: 'f' :: 'e' :: 'a' :: 't' :: '.' :: ' ' ::
        (List.intercalate [',', ' '] (f0 :: fRest) ++ [')'])) = T ++ [' '] := by
    rw [htpassoc]
    exact removeFeatClause_title hT hFjP hFj0
  have hartists : (((b0 :: bRest.map (fun n => ' ' :: n)).map stripChars).filter
      (fun p => !p.isEmpty)).map (fun p => (⟨p⟩ : String)) =
      (b0 :: bRest).map (fun p => (⟨p⟩ : String)) := by
    rw [List.map_cons, stripChars_letters (hB b0 (List.mem_cons_self _ _)).2,
      List.map_map]
    have h1 : bRest.map (stripChars ∘ fun n => ' ' :: n) = bRest := by
      rw [List.map_congr_left (fun n hn => by
        show stripChars (' ' :: n) = id n
        exact stripChars_space_letters (hB n (List.mem_cons_of_mem _ hn)).1
          (hB n (List.mem_cons_of_mem _ hn)).2)]
      exact List.map_id bRest
    rw [h1]
    rw [List.filter_eq_self.mpr (fun n hn => by
      cases hne : n with
      | nil => exact absurd hne (hB n hn).1
      | cons c n' => rfl)]
  have hfeatm : (f0 :: fRest.map (fun n => ' ' :: n)).map
      (fun p => (⟨stripChars p⟩ : String)) = (f0 :: fRest).map (fun p => (⟨p⟩ : String)) := by
    rw [List.map_cons, List.map_cons, List.map_map]
    congr 1
    · rw [stripChars_letters (hF f0 (List.mem_cons_self _ _)).2.1]
    · apply List.map_congr_left
      intro n hn
      show (⟨stripChars (' ' :: n)⟩ : String) = ⟨n⟩
      rw [stripChars_space_letters (hF n (List.mem_cons_of_mem _ hn)).1
        (hF n (List.mem_cons_of_mem _ hn)).2.1]
  have htitle : stripChars (stripChars (subDelete featClauseLen
      (T ++ ' ' :: '(' :: 'f' :: 'e' :: 'a' :: 't' :: '.' :: ' ' ::
        (List.intercalate [',', ' '] (f0 :: fRest) ++ [')'])))) = T := by
    rw [hremove, stripChars_letters_space hT, stripChars_letters hT]
  simp only [extract_artist_and_title, hsplit, hsearch, hsplitA, hfsplit, hartists,
    hfeatm, htitle]

/-- Witness for the amended C7 at a concrete instantiation. -/
theorem extract_artist_and_title_feat_merge_witness :
    extract_artist_and_title
        ⟨List.intercalate [',', ' '] [['A', 'l', 'i', 'c', 'e']] ++ ' ' :: '-' :: ' ' ::
          (['S', 'o', 'n', 'g'] ++ ' ' :: '(' :: 'f' :: 'e' :: 'a' :: 't' :: '.' :: ' ' ::
            (List.intercalate [',', ' '] [['B', 'o', 'b']] ++ [')']))⟩ =
      (([['A', 'l', 'i', 'c', 'e']].map fun p => (⟨p⟩ : String)) ++
          (([['B', 'o', 'b']].map fun p => (⟨p⟩ : String)).filter
            (fun a => !(([['A', 'l', 'i', 'c', 'e']].map fun p => (⟨p⟩ : String)).contains a))),
        (⟨['S', 'o', 'n', 'g']⟩ : String)) :=
  extract_artist_and_title_feat_merge [['A', 'l', 'i', 'c', 'e']] [['B', 'o', 'b']]
    ['S', 'o', 'n', 'g'] (by decide) (by decide) (by decide) (by decide) (by decide)

end PlaylistSync
